import Mathlib

set_option linter.unusedVariables false
set_option linter.unusedSectionVars false

/-!
# Verification of the Huffman-coding program in `src/main.py`

This file is a shallow embedding of the program in `src/main.py`:

* the CPython `heapq` module functions used by the program
  (`heapify`, `heappush`, `heappop`, and their helpers `_siftdown` and
  `_siftup`), modelled over `List α` with an explicit comparison function,
  since the program's `Node.__lt__` compares nodes by weight only;
* the `Node` class (a node either has both children absent — a leaf — or
  both present, which are the only two shapes the program ever constructs,
  so it is modelled as a two-constructor inductive carrying the `chars`
  and `weight` fields);
* the `HTree` methods `create_tree`, `__h_tree_to_table__`,
  `__encode_char_by_tree__` and `encode_char`;
* the module-level functions `frequencies` and `encode`.

Python strings are modelled as `List Char`; the bit-string codes built out
of the characters `'0'` and `'1'` are modelled as `List Bool` with
`false ↔ '0'` and `true ↔ '1'`.  Python run-time exceptions (attribute
errors, a `None` leaking into string concatenation, indexing an empty
list) are modelled by `Option`/`Except` failure values.
-/

namespace PyHeap

variable {α : Type} (lt : α → α → Bool)

/-- The loop of CPython's `_siftdown(heap, startpos, pos)` after reading
`newitem = heap[pos]`: bubble `newitem` up towards `startpos`, moving each
parent larger than it down, and finally store `newitem`.  The loop is
written with explicit fuel so that the recursion is structural (the hole
index strictly decreases each iteration, so the callers' fuel `pos` is
always enough; when fuel runs out the code below behaves exactly like
the loop exit, which by then is the only reachable branch). -/
def siftdownLoop : List α → Nat → α → Nat → Nat → List α
  | heap, _, newitem, pos, 0 => heap.set pos newitem
  | heap, startpos, newitem, pos, fuel + 1 =>
      if startpos < pos then
        match heap[(pos - 1) / 2]? with
        | some parent =>
            if lt newitem parent then
              siftdownLoop (heap.set pos parent) startpos newitem
                ((pos - 1) / 2) fuel
            else heap.set pos newitem
        | none => heap.set pos newitem
      else heap.set pos newitem

/-- CPython's `_siftdown(heap, startpos, pos)`. -/
def siftdown (heap : List α) (startpos pos : Nat) : List α :=
  match heap[pos]? with
  | some newitem => siftdownLoop lt heap startpos newitem pos pos
  | none => heap

/-- The loop of CPython's `_siftup(heap, pos)` after reading
`newitem = heap[pos]`: repeatedly move the smaller child up, then place
`newitem` and sift it down towards `startpos`.  (The child reads
`heap[2*pos+1]` and `heap[2*pos+2]` are guarded by the bounds tests of
the loop, exactly as in the Python code.)  Explicit fuel again makes the
recursion structural: the hole index strictly increases and stays below
`heap.length`, so the callers' fuel `heap.length` is always enough, and
an exhausted fuel falls through to the loop-exit code. -/
def siftupLoop : List α → Nat → α → Nat → Nat → List α
  | heap, startpos, newitem, pos, 0 =>
      siftdownLoop lt (heap.set pos newitem) startpos newitem pos pos
  | heap, startpos, newitem, pos, fuel + 1 =>
      if h : 2 * pos + 1 < heap.length then
        if h2 : 2 * pos + 2 < heap.length then
          if lt heap[2 * pos + 1] heap[2 * pos + 2] = false then
            siftupLoop (heap.set pos heap[2 * pos + 2]) startpos
              newitem (2 * pos + 2) fuel
          else
            siftupLoop (heap.set pos heap[2 * pos + 1]) startpos
              newitem (2 * pos + 1) fuel
        else
          siftupLoop (heap.set pos heap[2 * pos + 1]) startpos
            newitem (2 * pos + 1) fuel
      else
        siftdownLoop lt (heap.set pos newitem) startpos newitem pos pos

/-- CPython's `_siftup(heap, pos)` (with `startpos = pos` as in the
source of `heapq`, where `startpos` is read before the loop). -/
def siftup (heap : List α) (pos : Nat) : List α :=
  match heap[pos]? with
  | some newitem => siftupLoop lt heap pos newitem pos heap.length
  | none => heap

/-- CPython's `heappush`: append the item, then sift it down toward the
root. -/
def heappush (heap : List α) (item : α) : List α :=
  siftdownLoop lt (heap ++ [item]) 0 item heap.length heap.length

/-- CPython's `heappop`: remove the last element; if the heap is still
non-empty, overwrite the root with it, sift up, and return the old root.
Returns `none` on an empty heap (Python raises `IndexError`). -/
def heappop (heap : List α) : Option (α × List α) :=
  match heap.getLast? with
  | none => none
  | some lastelt =>
      match (heap.dropLast).head? with
      | none => some (lastelt, [])
      | some returnitem =>
          some (returnitem, siftup lt ((heap.dropLast).set 0 lastelt) 0)

/-- The loop of CPython's `heapify`: `_siftup` at indices
`n/2 - 1, …, 1, 0` in that order. -/
def heapifyLoop : List α → Nat → List α
  | heap, 0 => heap
  | heap, i + 1 => heapifyLoop (siftup lt heap i) i

/-- CPython's `heapify`. -/
def heapify (heap : List α) : List α := heapifyLoop lt heap (heap.length / 2)

end PyHeap

/-- The `Node` class of `src/main.py`.  The program only ever constructs
nodes with either no children (`Node(chars, count)` leaves) or with both
`left` and `right` assigned (the `parent` nodes of `create_tree`), so the
class is modelled as a tagged two-constructor type carrying the `chars`
and `weight` fields of both shapes. -/
inductive HNode : Type where
  | leaf (chars : List Char) (weight : Nat)
  | node (chars : List Char) (weight : Nat) (left : HNode) (right : HNode)
  deriving Repr, DecidableEq

/-- The `chars` field. -/
def HNode.chars : HNode → List Char
  | .leaf cs _ => cs
  | .node cs _ _ _ => cs

/-- The `weight` field. -/
def HNode.weight : HNode → Nat
  | .leaf _ w => w
  | .node _ w _ _ => w

/-- `Node.__lt__`: nodes compare by `weight` only. -/
def node_lt (a b : HNode) : Bool := decide (a.weight < b.weight)

/-- The `while len(free_leaves) > 1` loop of `HTree.create_tree`,
written with explicit fuel (the caller passes the heap length, which is
enough, since every iteration shrinks the heap by one element): pop the
two smallest nodes, build their parent with concatenated `chars` and
summed `weight`, and push it back. -/
def mergeLoop : Nat → List HNode → List HNode
  | 0, heap => heap
  | fuel + 1, heap =>
      if heap.length > 1 then
        match PyHeap.heappop node_lt heap with
        | some (l_leaf, heap1) =>
            match PyHeap.heappop node_lt heap1 with
            | some (r_leaf, heap2) =>
                mergeLoop fuel (PyHeap.heappush node_lt heap2
                  (HNode.node (l_leaf.chars ++ r_leaf.chars)
                    (l_leaf.weight + r_leaf.weight) l_leaf r_leaf))
            | none => heap1
        | none => heap
      else heap

/-- `HTree.create_tree`: build one leaf per frequency entry, heapify,
merge until a single node remains, and return it as the root.  Returns
`none` exactly when the final `free_leaves[0]` would raise `IndexError`
(empty frequency table). -/
def create_tree (freq : List (Char × Nat)) : Option HNode :=
  let free_leaves := freq.map (fun p => HNode.leaf [p.1] p.2)
  let h := PyHeap.heapify node_lt free_leaves
  (mergeLoop h.length h).head?

/-- `HTree.__encode_char_by_tree__`: walk from the given node while its
`chars` differs from the single-character string `c`, descending left when
`c` occurs in the left child's `chars` (appending bit `0` = `false`) and
right otherwise (bit `1` = `true`).  `none` models the `AttributeError`
the Python loop raises when it reaches a childless node whose `chars` is
not `c`. -/
def encode_char_by_tree (c : Char) : HNode → Option (List Bool)
  | .leaf cs _ => if cs = [c] then some [] else none
  | .node cs _ l r =>
      if cs = [c] then some []
      else if l.chars.contains c then
        (encode_char_by_tree c l).map (fun code => false :: code)
      else
        (encode_char_by_tree c r).map (fun code => true :: code)

/-- `HTree.__h_tree_to_table__`: one table entry per frequency entry, in
order, each computed by `__encode_char_by_tree__`.  `none` models a
Python exception while encoding some symbol. -/
def h_tree_to_table (root : HNode) : List (Char × Nat) →
    Option (List (Char × List Bool))
  | [] => some []
  | p :: rest =>
      match encode_char_by_tree p.1 root with
      | none => none
      | some code =>
          match h_tree_to_table root rest with
          | none => none
          | some table => some ((p.1, code) :: table)

/-- Lookup in the `encode_table` dict: repeated assignments to the same
key overwrite, so the value is the one from the last matching entry. -/
def table_get (table : List (Char × List Bool)) (c : Char) :
    Option (List Bool) :=
  (table.reverse.find? (fun p => p.1 == c)).map Prod.snd

/-- `HTree.encode_char`: `self.encode_table.get(c)`, which yields `None`
on a missing key. -/
def encode_char (table : List (Char × List Bool)) (c : Char) :
    Option (List Bool) :=
  table_get table c

/-- The failure modes of the program, named as in the specification.
`internalError` stands for a Python exception escaping from tree or table
construction (never reached on inputs accepted by `create_tree`). -/
inductive HuffError : Type where
  | insufficientAlphabet
  | unknownSymbol
  | truncatedCode
  | emptyTree
  | internalError
  deriving Repr, DecidableEq

/-- The `for ch in s` loop of `encode`: look every character up in the
table and concatenate the codes.  A missing character makes
`encode_char` return `None`, and `h_code += None` raises a `TypeError`
in Python: no output is produced, modelled by the `unknownSymbol`
error. -/
def encode_with_table (table : List (Char × List Bool)) :
    List Char → Except HuffError (List Bool)
  | [] => .ok []
  | ch :: rest =>
      match encode_char table ch with
      | none => .error .unknownSymbol
      | some code =>
          (encode_with_table table rest).map (fun bits => code ++ bits)

/-- The module-level `encode(freq, s)`: bail out (the Python function
returns `None`) when the frequency table has at most one entry, otherwise
build the tree and the table and encode the text character by
character. -/
def encode (freq : List (Char × Nat)) (s : List Char) :
    Except HuffError (List Bool) :=
  if freq.length ≤ 1 then .error .insufficientAlphabet
  else
    match create_tree freq with
    | none => .error .internalError
    | some root =>
        match h_tree_to_table root freq with
        | none => .error .internalError
        | some table => encode_with_table table s

/-- The module-level `frequencies(s)` loop: scan the text, and at the
first occurrence of a character append `(c, s.count(c))`, where `s` is
the whole text. -/
def freqLoop (s : List Char) : List Char → List Char → List (Char × Nat)
  | [], _ => []
  | c :: rest, symbols =>
      if symbols.contains c then freqLoop s rest symbols
      else (c, s.count c) :: freqLoop s rest (symbols ++ [c])

/-- `frequencies(s)`. -/
def frequencies (s : List Char) : List (Char × Nat) := freqLoop s s []

/-- Modelled from the spec: `src/main.py` contains no decoder, so the
walk step of `decode(bits, tree)` is taken from §4.4 of the design
document: from an internal node consume one bit (`0` = `false` goes left,
`1` = `true` goes right); a leaf emits its symbol(s) together with the
unconsumed bits; running out of bits at an internal node is the
`TruncatedCode` failure. -/
def walkDecode : HNode → List Bool → Except HuffError (List Char × List Bool)
  | .leaf cs _, bits => .ok (cs, bits)
  | .node _ _ _ _, [] => .error .truncatedCode
  | .node _ _ l r, b :: bits => walkDecode (if b then r else l) bits

/-- Modelled from the spec: the outer loop of `decode(bits, tree)` —
restart the walk at the root after each emitted symbol until the bits are
exhausted.  The fuel argument (instantiated with `bits.length`, enough
because every walk from an internal root consumes at least one bit) makes
the recursion structural. -/
def decodeLoop (root : HNode) : Nat → List Bool → Except HuffError (List Char)
  | _, [] => .ok []
  | 0, _ :: _ => .error .truncatedCode
  | fuel + 1, bits =>
      match walkDecode root bits with
      | .error e => .error e
      | .ok (cs, rest) =>
          (decodeLoop root fuel rest).map (fun tail => cs ++ tail)

/-- Modelled from the spec: `decode(bits, tree)`, failing with
`EmptyTree` when the tree has no root. -/
def decode (bits : List Bool) (root : Option HNode) :
    Except HuffError (List Char) :=
  match root with
  | none => .error .emptyTree
  | some t => decodeLoop t bits.length bits

/-- The multiset of symbols on the leaves of a tree. -/
def HNode.leafSyms : HNode → List Char
  | .leaf cs _ => cs
  | .node _ _ l r => l.leafSyms ++ r.leafSyms

/-- The structural invariant of every tree `create_tree` builds: leaves
carry a single character, and each internal node's `chars` is the
concatenation of its children's `chars` and its `weight` the sum of
their weights. -/
def HNode.builtInv : HNode → Prop
  | .leaf cs _ => cs.length = 1
  | .node cs w l r =>
      cs = l.chars ++ r.chars ∧ w = l.weight + r.weight ∧
        l.builtInv ∧ r.builtInv

/-- The multiset of all leaf symbols over a whole heap of trees (used to
state that merging preserves the set of leaves). -/
def symsOf (heap : List HNode) : Multiset Char :=
  ((heap : Multiset HNode).map (fun t => (t.leafSyms : Multiset Char))).sum

/-- The weight stored at index `i` of a heap of nodes (the dummy default
is only ever read out of range, where the heap functions never look). -/
def wgt (l : List HNode) (i : Nat) : Nat :=
  (l.getD i (HNode.leaf [] 0)).weight

/-- The min-heap ordering of the array representation, restricted to
parents at index `k` or later: every parent weighs no more than its
children.  `heapOrdFrom 0` is the full invariant maintained by the
`heapq` functions. -/
@[reducible] def heapOrdFrom (k : Nat) (l : List HNode) : Prop :=
  ∀ i, i < l.length → ∀ j, j < l.length →
    (j = 2 * i + 1 ∨ j = 2 * i + 2) → k ≤ i → wgt l i ≤ wgt l j

/-- The min-heap invariant of CPython's `heapq` array layout. -/
@[reducible] def heapOrd (l : List HNode) : Prop := heapOrdFrom 0 l

/-- `s` is on the parent chain of `pos` (used to track where the
`_siftdown` bubble-up can move its hole). -/
def isAncestor (s pos : Nat) : Prop :=
  if pos ≤ s then pos = s else isAncestor s ((pos - 1) / 2)
  termination_by pos
  decreasing_by omega

/-- The total leaf weight of a tree. -/
def HNode.wsum : HNode → Nat
  | .leaf _ w => w
  | .node _ _ l r => l.wsum + r.wsum

/-- The weighted path length of a tree: the sum over leaves of
leaf weight times leaf depth (equivalently, the sum of the subtree
weights over all internal nodes). -/
def HNode.wcost : HNode → Nat
  | .leaf _ _ => 0
  | .node _ _ l r => l.wcost + r.wcost + l.wsum + r.wsum

/-- The weight stored at the (unique, for built trees) leaf labelled
`[c]`. -/
def HNode.wOf (c : Char) : HNode → Nat
  | .leaf cs w => if cs = [c] then w else 0
  | .node _ _ l r => l.wOf c + r.wOf c

/-- The labelled leaves of a tree, left to right. -/
def HNode.leafPairs : HNode → List (List Char × Nat)
  | .leaf cs w => [(cs, w)]
  | .node _ _ l r => l.leafPairs ++ r.leafPairs

/-- The multiset of labelled leaves over a whole heap of trees. -/
def pairsOf (heap : List HNode) : Multiset (List Char × Nat) :=
  ((heap : Multiset HNode).map
    (fun t => (t.leafPairs : Multiset (List Char × Nat)))).sum

/-- The cost of a run of Huffman merges over a multiset of weights:
repeatedly take out the two smallest weights, pay their sum, and put the
sum back, until at most one weight remains. -/
def hcost (ms : Multiset Nat) : Nat :=
  if h : ms.card ≤ 1 then 0
  else
    match hs : ms.sort (· ≤ ·) with
    | [] => 0
    | [_] => 0
    | a :: b :: t =>
        a + b + hcost ((a + b) ::ₘ ((ms.erase a).erase b))
  termination_by ms.card
  decreasing_by
    have h1 : (↑(a :: b :: t) : Multiset Nat) = ms := by
      rw [← hs]; exact Multiset.sort_eq _ _
    have h2 : (ms.erase a).erase b = (↑t : Multiset Nat) := by
      rw [← h1, ← Multiset.cons_coe, ← Multiset.cons_coe,
        Multiset.erase_cons_head, Multiset.erase_cons_head]
    rw [h2, ← h1]
    simp only [Multiset.card_cons, ← Multiset.cons_coe, Multiset.coe_card,
      List.length_cons]
    omega

/-- One weighted item of an abstract code assignment: an occurrence
count together with a bit code. -/
def pairNP (p q : Nat × List Bool) : Prop :=
  ¬ p.2 <+: q.2 ∧ ¬ q.2 <+: p.2

/-- A prefix-free assignment: the codes of any two (positionally)
distinct items are not prefixes of one another. -/
def okItems (items : List (Nat × List Bool)) : Prop :=
  items.Pairwise pairNP

/-- The weighted length of an assignment. -/
def itemsCost (items : List (Nat × List Bool)) : Nat :=
  (items.map (fun p => p.1 * p.2.length)).sum

/-- The total (unweighted) code length of an assignment. -/
def itemsLen (items : List (Nat × List Bool)) : Nat :=
  (items.map (fun p => p.2.length)).sum

/-- The multiset of weights of an assignment. -/
def wsItems (items : List (Nat × List Bool)) : Multiset Nat :=
  (items.map Prod.fst : List Nat)

/-! ## Lemmas about the `heapq` model -/

namespace PyHeap

variable {α : Type}

theorem siftdownLoop_length (lt : α → α → Bool) :
    ∀ (fuel : Nat) (heap : List α) (s : Nat) (x : α) (p : Nat),
      (siftdownLoop lt heap s x p fuel).length = heap.length := by
  intro fuel
  induction fuel with
  | zero =>
      intro heap s x p
      rw [siftdownLoop]
      simp
  | succ fuel ih =>
      intro heap s x p
      rw [siftdownLoop]
      split
      · split
        · split
          · rw [ih]
            simp
          · simp
        · simp
      · simp

theorem siftupLoop_length (lt : α → α → Bool) :
    ∀ (fuel : Nat) (heap : List α) (s : Nat) (x : α) (p : Nat),
      (siftupLoop lt heap s x p fuel).length = heap.length := by
  intro fuel
  induction fuel with
  | zero =>
      intro heap s x p
      rw [siftupLoop, siftdownLoop_length]
      simp
  | succ fuel ih =>
      intro heap s x p
      rw [siftupLoop]
      split
      · split
        · split
          · rw [ih]
            simp
          · rw [ih]
            simp
        · rw [ih]
          simp
      · rw [siftdownLoop_length]
        simp

theorem siftdown_length (lt : α → α → Bool) (heap : List α) (s p : Nat) :
    (siftdown lt heap s p).length = heap.length := by
  unfold siftdown
  cases heap[p]? with
  | none => rfl
  | some x => exact siftdownLoop_length lt p heap s x p

theorem siftup_length (lt : α → α → Bool) (heap : List α) (p : Nat) :
    (siftup lt heap p).length = heap.length := by
  unfold siftup
  cases heap[p]? with
  | none => rfl
  | some x => exact siftupLoop_length lt heap.length heap p x p

theorem heapifyLoop_length (lt : α → α → Bool) (heap : List α) (n : Nat) :
    (heapifyLoop lt heap n).length = heap.length := by
  induction n generalizing heap with
  | zero => rfl
  | succ i ih => rw [heapifyLoop, ih, siftup_length]

theorem heapify_length (lt : α → α → Bool) (heap : List α) :
    (heapify lt heap).length = heap.length := heapifyLoop_length lt heap _

theorem heappush_length (lt : α → α → Bool) (heap : List α) (x : α) :
    (heappush lt heap x).length = heap.length + 1 := by
  unfold heappush
  rw [siftdownLoop_length]
  simp

/-- `l.set i l[i] = l`. -/
theorem set_self (l : List α) (i : Nat) (h : i < l.length) :
    l.set i l[i] = l := by
  apply List.ext_getElem (by simp)
  intro j h1 h2
  rcases eq_or_ne i j with rfl | hne
  · simp
  · rw [List.getElem_set_ne hne]

variable [DecidableEq α]

/-- Subtraction-free version of `List.count_set`. -/
theorem count_set_succ (l : List α) (i : Nat) (h : i < l.length) (a b : α) :
    (l.set i a).count b + (if l[i] = b then 1 else 0)
      = l.count b + (if a = b then 1 else 0) := by
  have hcp : l[i] = b → 1 ≤ l.count b := fun hb =>
    List.count_pos_iff.mpr (hb ▸ List.getElem_mem h)
  rw [List.count_set a b l i h]
  simp only [beq_iff_eq]
  split_ifs with h1 h2 <;>
    first
      | omega
      | (have h9 := hcp h1; omega)

/-- Writing `l[j]` at `i` and then `x` at `j` permutes to writing `x` at
`i` alone. -/
theorem set_set_perm (l : List α) {i j : Nat} (hi : i < l.length)
    (hj : j < l.length) (hne : i ≠ j) (x : α) :
    ((l.set i l[j]).set j x).Perm (l.set i x) := by
  rw [List.perm_iff_count]
  intro b
  have e1 := count_set_succ (l.set i l[j]) j (by simpa using hj) x b
  have e2 := count_set_succ l i hi l[j] b
  have e3 := count_set_succ l i hi x b
  rw [List.getElem_set_ne hne] at e1
  split_ifs at e1 e2 e3 <;> omega

theorem siftdownLoop_perm (lt : α → α → Bool) :
    ∀ (fuel : Nat) (heap : List α) (s : Nat) (x : α) (p : Nat),
      p < heap.length →
      (siftdownLoop lt heap s x p fuel).Perm (heap.set p x) := by
  intro fuel
  induction fuel with
  | zero =>
      intro heap s x p hp
      rw [siftdownLoop]
  | succ fuel ih =>
      intro heap s x p hp
      rw [siftdownLoop]
      by_cases h : s < p
      · rw [if_pos h]
        split
        · rename_i parent hget
          by_cases hlt : lt x parent = true
          · rw [if_pos hlt]
            obtain ⟨hpp, hpar⟩ := List.getElem?_eq_some_iff.mp hget
            refine (ih _ _ _ _ (by simpa using hpp)).trans ?_
            subst hpar
            exact set_set_perm heap hp hpp (by omega) x
          · rw [if_neg hlt]
        · exact List.Perm.refl _
      · rw [if_neg h]

theorem siftupLoop_perm (lt : α → α → Bool) :
    ∀ (fuel : Nat) (heap : List α) (s : Nat) (x : α) (p : Nat),
      p < heap.length →
      (siftupLoop lt heap s x p fuel).Perm (heap.set p x) := by
  intro fuel
  induction fuel with
  | zero =>
      intro heap s x p hp
      rw [siftupLoop]
      have h1 := siftdownLoop_perm lt p (heap.set p x) s x p
        (by simpa using hp)
      rwa [List.set_set] at h1
  | succ fuel ih =>
      intro heap s x p hp
      rw [siftupLoop]
      split
      · rename_i h
        split
        · rename_i h2
          split
          · refine (ih _ _ _ _ (by simpa using h2)).trans ?_
            exact set_set_perm heap hp h2 (by omega) x
          · refine (ih _ _ _ _ (by simpa using h)).trans ?_
            exact set_set_perm heap hp h (by omega) x
        · rename_i h2
          refine (ih _ _ _ _ (by simpa using h)).trans ?_
          exact set_set_perm heap hp h (by omega) x
      · rename_i h
        have h1 := siftdownLoop_perm lt p (heap.set p x) s x p
          (by simpa using hp)
        rwa [List.set_set] at h1

theorem siftup_perm (lt : α → α → Bool) (heap : List α) (p : Nat) :
    (siftup lt heap p).Perm heap := by
  unfold siftup
  cases hget : heap[p]? with
  | none => exact List.Perm.refl heap
  | some x =>
      obtain ⟨hp, hx⟩ := List.getElem?_eq_some_iff.mp hget
      subst hx
      have h5 := siftupLoop_perm lt heap.length heap p heap[p] p hp
      rwa [set_self heap p hp] at h5

theorem heapifyLoop_perm (lt : α → α → Bool) (heap : List α) (n : Nat) :
    (heapifyLoop lt heap n).Perm heap := by
  induction n generalizing heap with
  | zero => exact List.Perm.refl heap
  | succ i ih =>
      rw [heapifyLoop]
      exact (ih _).trans (siftup_perm lt heap i)

theorem heapify_perm (lt : α → α → Bool) (heap : List α) :
    (heapify lt heap).Perm heap := heapifyLoop_perm lt heap _

theorem heappush_perm (lt : α → α → Bool) (heap : List α) (x : α) :
    (heappush lt heap x).Perm (x :: heap) := by
  unfold heappush
  have h : heap.length < (heap ++ [x]).length := by simp
  have h1 := siftdownLoop_perm lt heap.length (heap ++ [x]) 0 x
    heap.length h
  have h2 : (heap ++ [x]).set heap.length x = heap ++ [x] := by
    apply List.ext_getElem (by simp)
    intro j h1 h2
    rcases eq_or_ne heap.length j with rfl | hne
    · simp
    · rw [List.getElem_set_ne hne]
  rw [h2] at h1
  exact h1.trans (List.perm_append_singleton x heap)

theorem heappop_nil (lt : α → α → Bool) : heappop lt ([] : List α) = none :=
  rfl

theorem heappop_single (lt : α → α → Bool) (y : α) :
    heappop lt [y] = some (y, []) := rfl

theorem heappop_cons_concat (lt : α → α → Bool) (z : α) (ys : List α)
    (y : α) :
    heappop lt (z :: ys ++ [y]) = some (z, siftup lt (y :: ys) 0) := by
  unfold heappop
  rw [show z :: ys ++ [y] = (z :: ys) ++ [y] from rfl,
    List.getLast?_concat, List.dropLast_concat]
  rfl

theorem heappop_isSome (lt : α → α → Bool) (heap : List α)
    (hne : heap ≠ []) :
    ∃ r rest, heappop lt heap = some (r, rest) := by
  rcases List.eq_nil_or_concat heap with rfl | ⟨ys, y, rfl⟩
  · exact absurd rfl hne
  · rw [List.concat_eq_append]
    cases ys with
    | nil => exact ⟨y, [], by rw [List.nil_append, heappop_single]⟩
    | cons z ys => exact ⟨z, _, heappop_cons_concat lt z ys y⟩

theorem heappop_perm (lt : α → α → Bool) (heap : List α) (r : α)
    (rest : List α) (h : heappop lt heap = some (r, rest)) :
    heap.Perm (r :: rest) := by
  rcases List.eq_nil_or_concat heap with rfl | ⟨ys, y, rfl⟩
  · simp [heappop_nil] at h
  · rw [List.concat_eq_append] at h ⊢
    cases ys with
    | nil =>
        rw [List.nil_append] at h ⊢
        rw [heappop_single] at h
        injection h with h
        injection h with h1 h2
        subst h1; subst h2
        exact List.Perm.refl _
    | cons z ys =>
        rw [heappop_cons_concat] at h
        injection h with h
        injection h with h1 h2
        subst h1; subst h2
        have hs : (siftup lt (y :: ys) 0).Perm (y :: ys) :=
          siftup_perm lt (y :: ys) 0
        exact List.Perm.trans
          (List.Perm.cons z (List.perm_append_singleton y ys))
          (List.Perm.cons z hs.symm)

theorem heappop_length (lt : α → α → Bool) (heap : List α) (r : α)
    (rest : List α) (h : heappop lt heap = some (r, rest)) :
    heap.length = rest.length + 1 :=
  (heappop_perm lt heap r rest h).length_eq.trans (by simp)

end PyHeap

/-! ## Invariants of `create_tree` -/

theorem HNode.chars_eq_leafSyms (t : HNode) (h : t.builtInv) :
    t.chars = t.leafSyms := by
  induction t with
  | leaf cs w => rfl
  | node cs w l r ihl ihr =>
      obtain ⟨hcs, hw, hl, hr⟩ := h
      simp only [HNode.chars, HNode.leafSyms]
      rw [hcs, ihl hl, ihr hr]

theorem HNode.leafSyms_ne_nil (t : HNode) (h : t.builtInv) :
    t.leafSyms ≠ [] := by
  induction t with
  | leaf cs w =>
      cases cs with
      | nil => simp [HNode.builtInv] at h
      | cons c cs => simp [HNode.leafSyms]
  | node cs w l r ihl ihr =>
      obtain ⟨hcs, hw, hl, hr⟩ := h
      simp only [HNode.leafSyms, ne_eq, List.append_eq_nil]
      intro hc
      exact ihl hl hc.1

theorem symsOf_perm {h1 h2 : List HNode} (h : h1.Perm h2) :
    symsOf h1 = symsOf h2 := by
  unfold symsOf
  rw [Multiset.coe_eq_coe.mpr h]

theorem symsOf_cons (t : HNode) (h : List HNode) :
    symsOf (t :: h) = (t.leafSyms : Multiset Char) + symsOf h := by
  simp [symsOf]

/-- One merge step: what `mergeLoop` pushes is built from what it popped. -/
theorem builtInv_parent (l r : HNode) (hl : l.builtInv) (hr : r.builtInv) :
    (HNode.node (l.chars ++ r.chars) (l.weight + r.weight) l r).builtInv :=
  ⟨rfl, rfl, hl, hr⟩

theorem mergeLoop_mem_inv (fuel : Nat) (heap : List HNode)
    (hP : ∀ t ∈ heap, t.builtInv) :
    ∀ t ∈ mergeLoop fuel heap, t.builtInv := by
  induction fuel generalizing heap with
  | zero => exact hP
  | succ fuel ih =>
      by_cases hlen : heap.length > 1
      · rw [mergeLoop, if_pos hlen]
        obtain ⟨l1, hp1, hpop1⟩ := PyHeap.heappop_isSome node_lt heap
          (by intro hc; rw [hc] at hlen; simp at hlen)
        have hperm1 := PyHeap.heappop_perm node_lt heap l1 hp1 hpop1
        have hlen1 := PyHeap.heappop_length node_lt heap l1 hp1 hpop1
        obtain ⟨r1, hp2, hpop2⟩ := PyHeap.heappop_isSome node_lt hp1
          (by intro hc; rw [hc] at hlen1; simp at hlen1; omega)
        have hperm2 := PyHeap.heappop_perm node_lt hp1 r1 hp2 hpop2
        simp only [hpop1, hpop2]
        apply ih
        intro t ht
        have hmem := (PyHeap.heappush_perm node_lt hp2 _).mem_iff.mp ht
        rcases List.mem_cons.mp hmem with rfl | hmem2
        · refine builtInv_parent l1 r1 ?_ ?_
          · exact hP l1 (hperm1.mem_iff.mpr (List.mem_cons_self l1 hp1))
          · have : r1 ∈ hp1 := hperm2.mem_iff.mpr (List.mem_cons_self r1 hp2)
            exact hP r1 (hperm1.mem_iff.mpr (List.mem_cons_of_mem l1 this))
        · have : t ∈ hp1 := hperm2.mem_iff.mpr (List.mem_cons_of_mem r1 hmem2)
          exact hP t (hperm1.mem_iff.mpr (List.mem_cons_of_mem l1 this))
      · rw [mergeLoop, if_neg hlen]
        exact hP

theorem mergeLoop_syms (fuel : Nat) (heap : List HNode) :
    symsOf (mergeLoop fuel heap) = symsOf heap := by
  induction fuel generalizing heap with
  | zero => rfl
  | succ fuel ih =>
      by_cases hlen : heap.length > 1
      · rw [mergeLoop, if_pos hlen]
        obtain ⟨l1, hp1, hpop1⟩ := PyHeap.heappop_isSome node_lt heap
          (by intro hc; rw [hc] at hlen; simp at hlen)
        have hperm1 := PyHeap.heappop_perm node_lt heap l1 hp1 hpop1
        have hlen1 := PyHeap.heappop_length node_lt heap l1 hp1 hpop1
        obtain ⟨r1, hp2, hpop2⟩ := PyHeap.heappop_isSome node_lt hp1
          (by intro hc; rw [hc] at hlen1; simp at hlen1; omega)
        have hperm2 := PyHeap.heappop_perm node_lt hp1 r1 hp2 hpop2
        simp only [hpop1, hpop2]
        rw [ih]
        rw [symsOf_perm (PyHeap.heappush_perm node_lt hp2 _), symsOf_cons,
          symsOf_perm hperm1, symsOf_cons, symsOf_perm hperm2, symsOf_cons]
        simp only [HNode.leafSyms]
        rw [← Multiset.coe_add]
        rw [add_assoc]
      · rw [mergeLoop, if_neg hlen]

theorem mergeLoop_length_one (fuel : Nat) (heap : List HNode)
    (hfuel : heap.length ≤ fuel + 1) (hne : heap ≠ []) :
    (mergeLoop fuel heap).length = 1 := by
  induction fuel generalizing heap with
  | zero =>
      have : heap.length = 1 := by
        have := List.length_pos.mpr hne
        omega
      rw [mergeLoop]
      exact this
  | succ fuel ih =>
      by_cases hlen : heap.length > 1
      · rw [mergeLoop, if_pos hlen]
        obtain ⟨l1, hp1, hpop1⟩ := PyHeap.heappop_isSome node_lt heap
          (by intro hc; rw [hc] at hlen; simp at hlen)
        have hlen1 := PyHeap.heappop_length node_lt heap l1 hp1 hpop1
        obtain ⟨r1, hp2, hpop2⟩ := PyHeap.heappop_isSome node_lt hp1
          (by intro hc; rw [hc] at hlen1; simp at hlen1; omega)
        have hlen2 := PyHeap.heappop_length node_lt hp1 r1 hp2 hpop2
        simp only [hpop1, hpop2]
        apply ih
        · rw [PyHeap.heappush_length]; omega
        · intro hc
          have := congrArg List.length hc
          rw [PyHeap.heappush_length] at this
          simp at this
      · rw [mergeLoop, if_neg hlen]
        have : heap.length = 1 := by
          have := List.length_pos.mpr hne
          omega
        exact this

theorem symsOf_leaves (freq : List (Char × Nat)) :
    symsOf (freq.map (fun p => HNode.leaf [p.1] p.2))
      = (freq.map Prod.fst : List Char) := by
  induction freq with
  | nil => rfl
  | cons p rest ih =>
      rw [List.map_cons, symsOf_cons, ih, List.map_cons]
      simp [HNode.leafSyms]

/-- `create_tree` succeeds on every non-empty frequency table, and the
resulting root satisfies the structural invariant and carries exactly the
table's symbols on its leaves. -/
theorem create_tree_props (freq : List (Char × Nat)) (hne : freq ≠ []) :
    ∃ root, create_tree freq = some root ∧ root.builtInv ∧
      (root.leafSyms : Multiset Char) = ↑(freq.map Prod.fst) := by
  unfold create_tree
  have hleaves_ne : freq.map (fun p => HNode.leaf [p.1] p.2) ≠ [] := by
    simpa using hne
  have hlen0 : (PyHeap.heapify node_lt
      (freq.map (fun p => HNode.leaf [p.1] p.2))).length
      = (freq.map (fun p => HNode.leaf [p.1] p.2)).length :=
    PyHeap.heapify_length _ _
  have hheap_ne : PyHeap.heapify node_lt
      (freq.map (fun p => HNode.leaf [p.1] p.2)) ≠ [] := by
    intro hc
    have := congrArg List.length hc
    rw [hlen0] at this
    simp at this
    exact hne this
  have hlen1 := mergeLoop_length_one (PyHeap.heapify node_lt
      (freq.map (fun p => HNode.leaf [p.1] p.2))).length
      (PyHeap.heapify node_lt (freq.map (fun p => HNode.leaf [p.1] p.2)))
      (by omega) hheap_ne
  obtain ⟨root, hroot⟩ := List.length_eq_one.mp hlen1
  refine ⟨root, ?_, ?_, ?_⟩
  · show (mergeLoop (PyHeap.heapify node_lt
        (freq.map (fun p => HNode.leaf [p.1] p.2))).length
        (PyHeap.heapify node_lt
          (freq.map (fun p => HNode.leaf [p.1] p.2)))).head? = some root
    rw [hroot]; rfl
  · refine mergeLoop_mem_inv _ _ ?_ root (by rw [hroot]; simp)
    intro t ht
    have hmem := (PyHeap.heapify_perm node_lt _).mem_iff.mp ht
    obtain ⟨p, hp, rfl⟩ := List.mem_map.mp hmem
    simp [HNode.builtInv]
  · have hsym := mergeLoop_syms ((PyHeap.heapify node_lt
      (freq.map (fun p => HNode.leaf [p.1] p.2))).length)
      (PyHeap.heapify node_lt (freq.map (fun p => HNode.leaf [p.1] p.2)))
    rw [hroot] at hsym
    rw [symsOf_perm (PyHeap.heapify_perm node_lt _), symsOf_leaves] at hsym
    rw [symsOf_cons] at hsym
    simpa [symsOf] using hsym

/-! ## The per-character code and the decoder walk -/

theorem node_chars_ne_single (cs : List Char) (w : Nat) (l r : HNode)
    (h : (HNode.node cs w l r).builtInv) (c : Char) : cs ≠ [c] := by
  obtain ⟨hcs, hw, hl, hr⟩ := h
  intro hq
  have hlen : cs.length = 1 := by rw [hq]; rfl
  rw [hcs, HNode.chars_eq_leafSyms l hl, HNode.chars_eq_leafSyms r hr,
    List.length_append] at hlen
  have h1 := List.length_pos.mpr (HNode.leafSyms_ne_nil l hl)
  have h2 := List.length_pos.mpr (HNode.leafSyms_ne_nil r hr)
  omega

theorem encode_walk (c : Char) (t : HNode) (h : t.builtInv)
    (hc : c ∈ t.leafSyms) :
    ∃ p, encode_char_by_tree c t = some p ∧
      ∀ rest, walkDecode t (p ++ rest) = Except.ok ([c], rest) := by
  induction t with
  | leaf cs w =>
      simp only [HNode.leafSyms] at hc
      simp only [HNode.builtInv] at h
      have hcs : cs = [c] := by
        cases cs with
        | nil => cases hc
        | cons d ds =>
            have hds : ds = [] := by
              simp only [List.length_cons] at h
              exact List.length_eq_zero.mp (by omega)
            subst hds
            have hdc : c = d := List.mem_singleton.mp hc
            rw [hdc]
      subst hcs
      exact ⟨[], by simp [encode_char_by_tree],
        fun rest => by simp [walkDecode]⟩
  | node cs w l r ihl ihr =>
      have hcsne : cs ≠ [c] := node_chars_ne_single cs w l r h c
      obtain ⟨hcs, hw, hl, hr⟩ := h
      have hlc : l.chars = l.leafSyms := HNode.chars_eq_leafSyms l hl
      simp only [HNode.leafSyms, List.mem_append] at hc
      by_cases hmem : l.chars.contains c
      · have hcl : c ∈ l.leafSyms := by rw [← hlc]; exact List.elem_iff.mp hmem
        obtain ⟨p, hp, hwalk⟩ := ihl hl hcl
        refine ⟨false :: p, ?_, ?_⟩
        · simp only [encode_char_by_tree, if_neg hcsne, if_pos hmem, hp,
            Option.map_some']
        · intro rest
          rw [List.cons_append, walkDecode]
          simpa using hwalk rest
      · have hcr : c ∈ r.leafSyms := by
          rcases hc with hc1 | hc2
          · exact absurd (List.elem_iff.mpr (hlc ▸ hc1)) hmem
          · exact hc2
        obtain ⟨p, hp, hwalk⟩ := ihr hr hcr
        refine ⟨true :: p, ?_, ?_⟩
        · simp only [encode_char_by_tree, if_neg hcsne, if_neg hmem, hp,
            Option.map_some']
        · intro rest
          rw [List.cons_append, walkDecode]
          simpa using hwalk rest

theorem node_code_ne_nil (cs : List Char) (w : Nat) (l r : HNode)
    (h : (HNode.node cs w l r).builtInv) (c : Char) (p : List Bool)
    (henc : encode_char_by_tree c (HNode.node cs w l r) = some p) :
    p ≠ [] := by
  have hcsne : cs ≠ [c] := node_chars_ne_single cs w l r h c
  simp only [encode_char_by_tree, if_neg hcsne] at henc
  by_cases hmem : l.chars.contains c
  · rw [if_pos hmem] at henc
    obtain ⟨p', hp', rfl⟩ := Option.map_eq_some'.mp henc
    simp
  · rw [if_neg hmem] at henc
    obtain ⟨p', hp', rfl⟩ := Option.map_eq_some'.mp henc
    simp

theorem codes_not_prefix_of_ne (t : HNode) (h : t.builtInv) :
    ∀ (c d : Char), c ≠ d → ∀ (p q : List Bool),
      encode_char_by_tree c t = some p →
      encode_char_by_tree d t = some q → ¬ p <+: q := by
  induction t with
  | leaf cs w =>
      intro c d hcd p q hp hq
      simp only [encode_char_by_tree] at hp hq
      split at hp
      case isTrue h1 =>
        split at hq
        case isTrue h2 =>
            rw [h1] at h2
            injection h2 with h3
            exact absurd h3 hcd
        case isFalse h2 => exact absurd hq (by simp)
      case isFalse h1 => exact absurd hp (by simp)
  | node cs w l r ihl ihr =>
      intro c d hcd p q hp hq
      have hcne : cs ≠ [c] := node_chars_ne_single cs w l r h c
      have hdne : cs ≠ [d] := node_chars_ne_single cs w l r h d
      obtain ⟨hcs, hw, hl, hr⟩ := h
      simp only [encode_char_by_tree, if_neg hcne] at hp
      simp only [encode_char_by_tree, if_neg hdne] at hq
      by_cases h1 : l.chars.contains c <;> by_cases h2 : l.chars.contains d
      · rw [if_pos h1] at hp
        rw [if_pos h2] at hq
        obtain ⟨p', hp', rfl⟩ := Option.map_eq_some'.mp hp
        obtain ⟨q', hq', rfl⟩ := Option.map_eq_some'.mp hq
        intro hpre
        exact ihl hl c d hcd p' q' hp' hq'
          (List.cons_prefix_cons.mp hpre).2
      · rw [if_pos h1] at hp
        rw [if_neg h2] at hq
        obtain ⟨p', hp', rfl⟩ := Option.map_eq_some'.mp hp
        obtain ⟨q', hq', rfl⟩ := Option.map_eq_some'.mp hq
        intro hpre
        exact absurd (List.cons_prefix_cons.mp hpre).1 (by simp)
      · rw [if_neg h1] at hp
        rw [if_pos h2] at hq
        obtain ⟨p', hp', rfl⟩ := Option.map_eq_some'.mp hp
        obtain ⟨q', hq', rfl⟩ := Option.map_eq_some'.mp hq
        intro hpre
        exact absurd (List.cons_prefix_cons.mp hpre).1 (by simp)
      · rw [if_neg h1] at hp
        rw [if_neg h2] at hq
        obtain ⟨p', hp', rfl⟩ := Option.map_eq_some'.mp hp
        obtain ⟨q', hq', rfl⟩ := Option.map_eq_some'.mp hq
        intro hpre
        exact ihr hr c d hcd p' q' hp' hq'
          (List.cons_prefix_cons.mp hpre).2

/-! ## The code table -/

theorem h_tree_to_table_some (root : HNode) (freq : List (Char × Nat))
    (henc : ∀ p ∈ freq, ∃ code, encode_char_by_tree p.1 root = some code) :
    ∃ table, h_tree_to_table root freq = some table := by
  induction freq with
  | nil => exact ⟨[], rfl⟩
  | cons p rest ih =>
      obtain ⟨code, hcode⟩ := henc p (List.mem_cons_self p rest)
      obtain ⟨table, htable⟩ := ih
        (fun q hq => henc q (List.mem_cons_of_mem p hq))
      exact ⟨(p.1, code) :: table, by rw [h_tree_to_table, hcode, htable]⟩

theorem h_tree_to_table_mem (root : HNode) (freq : List (Char × Nat))
    (table : List (Char × List Bool))
    (ht : h_tree_to_table root freq = some table) :
    ∀ e ∈ table, encode_char_by_tree e.1 root = some e.2 := by
  induction freq generalizing table with
  | nil =>
      rw [h_tree_to_table] at ht
      injection ht with ht
      subst ht
      intro e he
      cases he
  | cons p rest ih =>
      rw [h_tree_to_table] at ht
      cases hcode : encode_char_by_tree p.1 root with
      | none => rw [hcode] at ht; cases ht
      | some code =>
          rw [hcode] at ht
          cases htable : h_tree_to_table root rest with
          | none => rw [htable] at ht; cases ht
          | some table' =>
              rw [htable] at ht
              injection ht with ht
              subst ht
              intro e he
              rcases List.mem_cons.mp he with rfl | he2
              · exact hcode
              · exact ih table' htable e he2

theorem h_tree_to_table_keys (root : HNode) (freq : List (Char × Nat))
    (table : List (Char × List Bool))
    (ht : h_tree_to_table root freq = some table) :
    table.map Prod.fst = freq.map Prod.fst := by
  induction freq generalizing table with
  | nil =>
      rw [h_tree_to_table] at ht
      injection ht with ht
      subst ht
      rfl
  | cons p rest ih =>
      rw [h_tree_to_table] at ht
      cases hcode : encode_char_by_tree p.1 root with
      | none => rw [hcode] at ht; cases ht
      | some code =>
          rw [hcode] at ht
          cases htable : h_tree_to_table root rest with
          | none => rw [htable] at ht; cases ht
          | some table' =>
              rw [htable] at ht
              injection ht with ht
              subst ht
              simp only [List.map_cons]
              rw [ih table' htable]

theorem table_get_mem (table : List (Char × List Bool)) (c : Char)
    (p : List Bool) (h : table_get table c = some p) : (c, p) ∈ table := by
  unfold table_get at h
  cases hf : table.reverse.find? (fun e => e.1 == c) with
  | none => rw [hf] at h; cases h
  | some e =>
      rw [hf] at h
      injection h with h
      have hm := List.mem_of_find?_eq_some hf
      have hp := List.find?_some hf
      have he1 : e.1 = c := by simpa using hp
      have he : e = (c, p) := by
        cases e
        simp only at he1 h
        rw [he1, h]
      rw [he] at hm
      exact List.mem_reverse.mp hm

theorem table_get_isSome (table : List (Char × List Bool)) (c : Char)
    (h : c ∈ table.map Prod.fst) : ∃ p, table_get table c = some p := by
  unfold table_get
  obtain ⟨e, he, hfst⟩ := List.mem_map.mp h
  have hs : (table.reverse.find? (fun e => e.1 == c)).isSome := by
    rw [List.find?_isSome]
    exact ⟨e, List.mem_reverse.mpr he, by simp [hfst]⟩
  obtain ⟨e', he'⟩ := Option.isSome_iff_exists.mp hs
  exact ⟨e'.2, by rw [he']; rfl⟩

theorem table_get_none (table : List (Char × List Bool)) (c : Char)
    (h : c ∉ table.map Prod.fst) : table_get table c = none := by
  unfold table_get
  rw [List.find?_eq_none.mpr]
  · rfl
  · intro e he hbeq
    refine h (List.mem_map.mpr ⟨e, List.mem_reverse.mp he, ?_⟩)
    simpa using hbeq

/-! ## The encoding loop and the decoding loop -/

theorem encode_with_table_flat (table : List (Char × List Bool))
    (f : Char → List Bool) (s : List Char)
    (h : ∀ c ∈ s, table_get table c = some (f c)) :
    encode_with_table table s = .ok (s.map f).flatten := by
  induction s with
  | nil => rfl
  | cons ch rest ih =>
      rw [encode_with_table]
      unfold encode_char
      rw [h ch (List.mem_cons_self ch rest),
        ih (fun c hc => h c (List.mem_cons_of_mem ch hc))]
      simp [Except.map]

theorem encode_with_table_err (table : List (Char × List Bool))
    (s : List Char) (c : Char) (hc : c ∈ s)
    (hn : table_get table c = none) :
    encode_with_table table s = .error .unknownSymbol := by
  induction s with
  | nil => cases hc
  | cons ch rest ih =>
      rw [encode_with_table]
      unfold encode_char
      rcases List.mem_cons.mp hc with rfl | hmem
      · rw [hn]
      · cases hg : table_get table ch with
        | none => rfl
        | some code => rw [ih hmem]; rfl

theorem decodeLoop_concat (root : HNode) (f : Char → List Bool)
    (xs : List Char)
    (hw : ∀ c ∈ xs,
      (∀ rest, walkDecode root (f c ++ rest) = Except.ok ([c], rest)) ∧
        f c ≠ []) :
    ∀ fuel, ((xs.map f).flatten).length ≤ fuel →
      decodeLoop root fuel ((xs.map f).flatten) = .ok xs := by
  induction xs with
  | nil => intro fuel hf; cases fuel <;> rfl
  | cons c cs ih =>
      intro fuel hfuel
      obtain ⟨hwc, hnec⟩ := hw c (List.mem_cons_self c cs)
      cases hfc : f c with
      | nil => exact absurd hfc hnec
      | cons b bs =>
          have hflat : ((c :: cs).map f).flatten
              = b :: (bs ++ ((cs.map f)).flatten) := by
            simp [hfc]
          rw [hflat] at hfuel ⊢
          cases fuel with
          | zero => simp at hfuel
          | succ fuel' =>
              rw [decodeLoop]
              have hwc' := hwc ((cs.map f).flatten)
              rw [hfc, List.cons_append] at hwc'
              rw [hwc']
              show Except.map (fun tail => [c] ++ tail)
                (decodeLoop root fuel' ((cs.map f).flatten))
                  = Except.ok (c :: cs)
              rw [ih (fun d hd => hw d (List.mem_cons_of_mem c hd)) fuel'
                (by simp only [List.length_cons, List.length_append] at hfuel
                    omega)]
              rfl
              simp

/-! ## Properties of `frequencies` -/

theorem freqLoop_pairs (s : List Char) : ∀ (rest seen : List Char),
    ∀ p ∈ freqLoop s rest seen, p.2 = s.count p.1 ∧ p.1 ∈ rest := by
  intro rest
  induction rest with
  | nil => intro seen p hp; cases hp
  | cons c r ih =>
      intro seen p hp
      rw [freqLoop] at hp
      by_cases hseen : seen.contains c
      · rw [if_pos hseen] at hp
        obtain ⟨h1, h2⟩ := ih seen p hp
        exact ⟨h1, List.mem_cons_of_mem c h2⟩
      · rw [if_neg hseen] at hp
        rcases List.mem_cons.mp hp with rfl | hmem
        · exact ⟨rfl, List.mem_cons_self c r⟩
        · obtain ⟨h1, h2⟩ := ih (seen ++ [c]) p hmem
          exact ⟨h1, List.mem_cons_of_mem c h2⟩

theorem freqLoop_keys_mem (s : List Char) :
    ∀ (rest seen : List Char) (d : Char),
      d ∈ (freqLoop s rest seen).map Prod.fst ↔ d ∈ rest ∧ d ∉ seen := by
  intro rest
  induction rest with
  | nil => intro seen d; simp [freqLoop]
  | cons c r ih =>
      intro seen d
      rw [freqLoop]
      by_cases hseen : seen.contains c
      · rw [if_pos hseen]
        rw [ih seen d]
        have hcseen : c ∈ seen := List.elem_iff.mp hseen
        simp only [List.mem_cons]
        constructor
        · rintro ⟨h1, h2⟩
          exact ⟨Or.inr h1, h2⟩
        · rintro ⟨h1 | h1, h2⟩
          · subst h1; exact absurd hcseen h2
          · exact ⟨h1, h2⟩
      · rw [if_neg hseen]
        simp only [List.map_cons, List.mem_cons]
        rw [ih (seen ++ [c]) d]
        have hcseen : c ∉ seen := fun hc => hseen (List.elem_iff.mpr hc)
        simp only [List.mem_append, List.mem_singleton, not_or]
        constructor
        · rintro (h0 | ⟨h1, h2, h3⟩)
          · exact ⟨Or.inl h0, h0 ▸ hcseen⟩
          · exact ⟨Or.inr h1, h2⟩
        · rintro ⟨h1 | h1, h2⟩
          · exact Or.inl h1
          · by_cases hdc : d = c
            · exact Or.inl hdc
            · exact Or.inr ⟨h1, h2, hdc⟩

theorem freqLoop_keys_nodup (s : List Char) : ∀ (rest seen : List Char),
    ((freqLoop s rest seen).map Prod.fst).Nodup := by
  intro rest
  induction rest with
  | nil => intro seen; simp [freqLoop]
  | cons c r ih =>
      intro seen
      rw [freqLoop]
      by_cases hseen : seen.contains c
      · rw [if_pos hseen]; exact ih seen
      · rw [if_neg hseen]
        simp only [List.map_cons, List.nodup_cons]
        refine ⟨?_, ih (seen ++ [c])⟩
        intro hc
        rw [freqLoop_keys_mem] at hc
        exact hc.2 (by simp)

theorem freqLoop_keys_sorted (s : List Char) : ∀ (rest seen : List Char),
    ((freqLoop s rest seen).map Prod.fst).Pairwise
      (fun a b => rest.indexOf a < rest.indexOf b) := by
  intro rest
  induction rest with
  | nil => intro seen; simp [freqLoop]
  | cons c r ih =>
      intro seen
      rw [freqLoop]
      by_cases hseen : seen.contains c
      · rw [if_pos hseen]
        refine List.Pairwise.imp_of_mem ?_ (ih seen)
        intro a b ha hb hab
        have ha' := (freqLoop_keys_mem s r seen a).mp ha
        have hb' := (freqLoop_keys_mem s r seen b).mp hb
        have hac : a ≠ c := fun h => ha'.2 (h ▸ List.elem_iff.mp hseen)
        have hbc : b ≠ c := fun h => hb'.2 (h ▸ List.elem_iff.mp hseen)
        rw [List.indexOf_cons_ne _ (Ne.symm hac),
          List.indexOf_cons_ne _ (Ne.symm hbc)]
        omega
      · rw [if_neg hseen]
        simp only [List.map_cons]
        rw [List.pairwise_cons]
        constructor
        · intro b hb
          have hb' := (freqLoop_keys_mem s r (seen ++ [c]) b).mp hb
          have hbc : b ≠ c := fun h => hb'.2 (by simp [h])
          rw [List.indexOf_cons_self, List.indexOf_cons_ne _ (Ne.symm hbc)]
          omega
        · refine List.Pairwise.imp_of_mem ?_ (ih (seen ++ [c]))
          intro a b ha hb hab
          have ha' := (freqLoop_keys_mem s r (seen ++ [c]) a).mp ha
          have hb' := (freqLoop_keys_mem s r (seen ++ [c]) b).mp hb
          have hac : a ≠ c := fun h => ha'.2 (by simp [h])
          have hbc : b ≠ c := fun h => hb'.2 (by simp [h])
          rw [List.indexOf_cons_ne _ (Ne.symm hac),
            List.indexOf_cons_ne _ (Ne.symm hbc)]
          omega

/-! ## Counting lemmas -/

theorem sum_map_filter_ne (f : Char → Nat) (k : Char) (s : List Char) :
    (s.map f).sum
      = s.count k * f k + ((s.filter (fun x => !(x == k))).map f).sum := by
  induction s with
  | nil => simp
  | cons x xs ih =>
      by_cases hx : x = k
      · subst hx
        rw [List.filter_cons, if_neg (by simp)]
        simp only [List.map_cons, List.sum_cons, List.count_cons_self]
        rw [ih]
        ring
      · simp only [List.map_cons, List.sum_cons,
          List.count_cons_of_ne (by exact fun h => hx h.symm : k ≠ x),
          List.filter_cons]
        rw [if_pos (by simp [hx]), List.map_cons, List.sum_cons, ih]
        ring

theorem sum_weighted (keys : List Char) (s : List Char) (f : Char → Nat)
    (hnd : keys.Nodup) (hcov : ∀ c ∈ s, c ∈ keys) :
    (s.map f).sum = (keys.map (fun c => s.count c * f c)).sum := by
  induction keys generalizing s with
  | nil =>
      have hs : s = [] :=
        List.eq_nil_iff_forall_not_mem.mpr
          (fun a ha => List.not_mem_nil a (hcov a ha))
      subst hs
      rfl
  | cons k ks ih =>
      rw [List.map_cons, List.sum_cons]
      rw [sum_map_filter_ne f k s]
      have hih := ih (s.filter (fun x => !(x == k)))
        (List.Nodup.of_cons hnd)
        (fun c hc => by
          have hmem := List.mem_of_mem_filter hc
          have hprop := List.of_mem_filter hc
          have hck : c ≠ k := by simpa using hprop
          rcases List.mem_cons.mp (hcov c hmem) with rfl | h3
          · exact absurd rfl hck
          · exact h3)
      have hmap : ks.map
            (fun c => (s.filter (fun x => !(x == k))).count c * f c)
          = ks.map (fun c => s.count c * f c) :=
        List.map_congr_left (fun c hc => by
          have hck : c ≠ k := by
            rintro rfl
            exact (List.nodup_cons.mp hnd).1 hc
          rw [List.count_filter (by simpa using hck)])
      rw [hih, hmap]

theorem sum_map_one (s : List Char) :
    (s.map (fun _ => (1 : Nat))).sum = s.length := by
  induction s with
  | nil => rfl
  | cons a l ihl =>
      simp only [List.map_cons, List.sum_cons, List.length_cons, ihl]
      omega

theorem sum_counts (keys : List Char) (s : List Char) (hnd : keys.Nodup)
    (hcov : ∀ c ∈ s, c ∈ keys) :
    (keys.map (fun c => s.count c)).sum = s.length := by
  have h := sum_weighted keys s (fun _ => 1) hnd hcov
  rw [sum_map_one] at h
  simp only [mul_one] at h
  exact h.symm

/-! ## Assembly: everything the claims need about a built tree -/

theorem build_all (freq : List (Char × Nat)) (hne : freq ≠ [])
    (hnd : (freq.map Prod.fst).Nodup) :
    ∃ root table, create_tree freq = some root ∧
      h_tree_to_table root freq = some table ∧
      root.builtInv ∧ root.leafSyms.Perm (freq.map Prod.fst) ∧
      (∀ e ∈ table, encode_char_by_tree e.1 root = some e.2) ∧
      table.map Prod.fst = freq.map Prod.fst := by
  obtain ⟨root, hct, hinv, hsyms⟩ := create_tree_props freq hne
  have hperm : root.leafSyms.Perm (freq.map Prod.fst) :=
    Multiset.coe_eq_coe.mp hsyms
  have hkeymem : ∀ c ∈ freq.map Prod.fst, c ∈ root.leafSyms :=
    fun c hc => hperm.mem_iff.mpr hc
  obtain ⟨table, htable⟩ := h_tree_to_table_some root freq (fun p hp => by
    obtain ⟨code, hcode, _⟩ := encode_walk p.1 root hinv
      (hkeymem p.1 (List.mem_map.mpr ⟨p, hp, rfl⟩))
    exact ⟨code, hcode⟩)
  exact ⟨root, table, hct, htable, hinv, hperm,
    h_tree_to_table_mem root freq table htable,
    h_tree_to_table_keys root freq table htable⟩

theorem root_is_node (freq : List (Char × Nat)) (hlen : 2 ≤ freq.length)
    (root : HNode) (hct : create_tree freq = some root)
    (hinv : root.builtInv)
    (hperm : root.leafSyms.Perm (freq.map Prod.fst)) :
    ∃ cs w l r, root = HNode.node cs w l r := by
  cases root with
  | leaf cs w =>
      have hlen1 : cs.length = 1 := hinv
      have hlen2 := hperm.length_eq
      simp only [HNode.leafSyms, List.length_map] at hlen2
      omega
  | node cs w l r => exact ⟨cs, w, l, r, rfl⟩

/-- All keys of the frequency table of `s` are symbols of `s` and
vice versa. -/
theorem frequencies_keys_iff (s : List Char) (c : Char) :
    c ∈ (frequencies s).map Prod.fst ↔ c ∈ s := by
  unfold frequencies
  rw [freqLoop_keys_mem s s [] c]
  simp

theorem frequencies_keys_nodup (s : List Char) :
    ((frequencies s).map Prod.fst).Nodup := freqLoop_keys_nodup s s []

/-! ## Claim theorems -/

/-- C2.  For every frequency table accepted by tree construction
(non-empty, no duplicate symbols, all counts positive, at least two
entries), the derived code table is prefix-free: for every pair of
entries with distinct symbols, neither bit code is a prefix of the
other. -/
theorem huffman_table_prefix_free (freq : List (Char × Nat))
    (hlen : 2 ≤ freq.length) (hnd : (freq.map Prod.fst).Nodup)
    (hpos : ∀ p ∈ freq, 0 < p.2) :
    ∃ root table, create_tree freq = some root ∧
      h_tree_to_table root freq = some table ∧
      ∀ p ∈ table, ∀ q ∈ table, p.1 ≠ q.1 → ¬ p.2 <+: q.2 := by
  obtain ⟨root, table, hct, htable, hinv, hperm, hmem, hkeys⟩ :=
    build_all freq (by intro hc; rw [hc] at hlen; simp at hlen) hnd
  exact ⟨root, table, hct, htable, fun p hp q hq hne =>
    codes_not_prefix_of_ne root hinv p.1 q.1 hne p.2 q.2
      (hmem p hp) (hmem q hq)⟩

/-- Witness for C2 at the concrete table `[('a',1),('b',2)]`. -/
theorem huffman_table_prefix_free_witness :
    2 ≤ ([('a', 1), ('b', 2)] : List (Char × Nat)).length ∧
    (([('a', 1), ('b', 2)] : List (Char × Nat)).map Prod.fst).Nodup ∧
    (∀ p ∈ ([('a', 1), ('b', 2)] : List (Char × Nat)), 0 < p.2) ∧
    ∃ root table,
      create_tree [('a', 1), ('b', 2)] = some root ∧
      h_tree_to_table root [('a', 1), ('b', 2)] = some table ∧
      ∀ p ∈ table, ∀ q ∈ table, p.1 ≠ q.1 → ¬ p.2 <+: q.2 :=
  ⟨by decide, by decide, by decide,
    huffman_table_prefix_free [('a', 1), ('b', 2)]
      (by decide) (by decide) (by decide)⟩

/-- C9.  The tree built from a valid frequency table satisfies the
structural invariant (`builtInv`: every internal node carries exactly two
child subtrees, its `chars` is the concatenation of its children's
`chars`, and its weight is the sum of its children's weights), and its
leaves carry exactly the input symbols, each input symbol in exactly one
leaf. -/
theorem built_tree_invariant (freq : List (Char × Nat))
    (hne : freq ≠ []) (hnd : (freq.map Prod.fst).Nodup) :
    ∃ root, create_tree freq = some root ∧ root.builtInv ∧
      root.leafSyms.Perm (freq.map Prod.fst) ∧
      ∀ c ∈ freq.map Prod.fst, root.leafSyms.count c = 1 := by
  obtain ⟨root, hct, hinv, hsyms⟩ := create_tree_props freq hne
  have hperm : root.leafSyms.Perm (freq.map Prod.fst) :=
    Multiset.coe_eq_coe.mp hsyms
  refine ⟨root, hct, hinv, hperm, fun c hc => ?_⟩
  have hnd2 : root.leafSyms.Nodup := hperm.nodup_iff.mpr hnd
  exact List.count_eq_one_of_mem hnd2 (hperm.mem_iff.mpr hc)

/-- Witness for C9 at the concrete table `[('a',1),('b',2)]`. -/
theorem built_tree_invariant_witness :
    ([('a', 1), ('b', 2)] : List (Char × Nat)) ≠ [] ∧
    (([('a', 1), ('b', 2)] : List (Char × Nat)).map Prod.fst).Nodup ∧
    ∃ root, create_tree [('a', 1), ('b', 2)] = some root ∧
      root.builtInv ∧
      root.leafSyms.Perm ([('a', 1), ('b', 2)].map Prod.fst) ∧
      ∀ c ∈ ([('a', 1), ('b', 2)] : List (Char × Nat)).map Prod.fst,
        root.leafSyms.count c = 1 :=
  ⟨by decide, by decide,
    built_tree_invariant [('a', 1), ('b', 2)] (by decide) (by decide)⟩

/-- C3.  `encode` on a frequency table with fewer than two entries fails
(the Python function returns `None` before any tree is built), which the
specification names `InsufficientAlphabet`. -/
theorem encode_insufficient_alphabet (freq : List (Char × Nat))
    (s : List Char) (h : freq.length < 2) :
    encode freq s = .error .insufficientAlphabet := by
  unfold encode
  rw [if_pos (by omega)]

/-- Witness for C3 on the one-entry table and on the empty table. -/
theorem encode_insufficient_alphabet_witness :
    ([('a', 3)] : List (Char × Nat)).length < 2 ∧
    encode [('a', 3)] ['a'] = .error .insufficientAlphabet ∧
    encode [] ['a'] = .error .insufficientAlphabet :=
  ⟨by decide, encode_insufficient_alphabet [('a', 3)] ['a'] (by decide),
    encode_insufficient_alphabet [] ['a'] (by decide)⟩

/-- C4.  The character-encoding loop of `encode`: when some character of
the text is missing from the code table the result is the
`UnknownSymbol` failure with no partial output, and when every character
is present the result is the in-order concatenation of the per-character
codes. -/
theorem encode_loop_unknown_or_concat (table : List (Char × List Bool))
    (s : List Char) :
    ((∃ c ∈ s, encode_char table c = none) →
      encode_with_table table s = .error .unknownSymbol) ∧
    ((∀ c ∈ s, ∃ p, encode_char table c = some p) →
      encode_with_table table s
        = .ok ((s.map (fun c => (encode_char table c).getD [])).flatten)) := by
  constructor
  · rintro ⟨c, hc, hn⟩
    exact encode_with_table_err table s c hc hn
  · intro h
    refine encode_with_table_flat table _ s (fun c hc => ?_)
    obtain ⟨p, hp⟩ := h c hc
    rw [show table_get table c = encode_char table c from rfl, hp]
    rfl

/-- Witness for C4: a missing symbol fails, a covered text encodes to
the concatenation of its codes. -/
theorem encode_loop_unknown_or_concat_witness :
    (∃ c ∈ (['b'] : List Char),
      encode_char [('a', [false])] c = none) ∧
    encode_with_table [('a', [false])] ['b'] = .error .unknownSymbol ∧
    (∀ c ∈ (['a', 'a'] : List Char),
      ∃ p, encode_char [('a', [false])] c = some p) ∧
    encode_with_table [('a', [false])] ['a', 'a']
      = .ok (((['a', 'a'] : List Char).map
          (fun c => (encode_char [('a', [false])] c).getD [])).flatten) := by
  have hall : ∀ c ∈ (['a', 'a'] : List Char),
      ∃ p, encode_char [('a', [false])] c = some p := by
    intro c hc
    rcases List.mem_cons.mp hc with rfl | hc2
    · exact ⟨[false], rfl⟩
    · rcases List.mem_cons.mp hc2 with rfl | hc3
      · exact ⟨[false], rfl⟩
      · cases hc3
  refine ⟨by decide,
    (encode_loop_unknown_or_concat [('a', [false])] ['b']).1 (by decide),
    hall,
    (encode_loop_unknown_or_concat [('a', [false])] ['a', 'a']).2 hall⟩

/-- C7.  `frequencies` lists every distinct symbol of the text exactly
once (no duplicates, and a symbol is listed iff it occurs), pairs each
symbol with its exact occurrence count, lists symbols in first-occurrence
order (the first occurrence index in `s` is strictly increasing along
the list), and maps the empty text to the empty sequence. -/
theorem frequencies_spec (s : List Char) :
    ((frequencies s).map Prod.fst).Nodup ∧
    (∀ c, c ∈ (frequencies s).map Prod.fst ↔ c ∈ s) ∧
    (∀ p ∈ frequencies s, p.2 = s.count p.1) ∧
    ((frequencies s).map Prod.fst).Pairwise
      (fun a b => s.indexOf a < s.indexOf b) ∧
    frequencies ([] : List Char) = [] := by
  refine ⟨frequencies_keys_nodup s, frequencies_keys_iff s, ?_, ?_, rfl⟩
  · exact fun p hp => (freqLoop_pairs s s [] p hp).1
  · exact freqLoop_keys_sorted s s []

/-- C10.  The counts returned by `frequencies` sum to the length of the
text, and every count is strictly positive. -/
theorem frequencies_sum_and_pos (s : List Char) :
    ((frequencies s).map Prod.snd).sum = s.length ∧
    ∀ p ∈ frequencies s, 0 < p.2 := by
  constructor
  · have hmap : (frequencies s).map Prod.snd
        = ((frequencies s).map Prod.fst).map (fun c => s.count c) := by
      rw [List.map_map]
      refine List.map_congr_left ?_
      intro p hp
      exact (freqLoop_pairs s s [] p hp).1
    rw [hmap]
    exact sum_counts _ s (frequencies_keys_nodup s)
      (fun c hc => (frequencies_keys_iff s c).mpr hc)
  · intro p hp
    obtain ⟨h1, h2⟩ := freqLoop_pairs s s [] p hp
    rw [h1]
    exact List.count_pos_iff.mpr h2

/-- C1.  Round-trip: for every non-empty text with at least two distinct
symbols, decoding (per the spec's tree-walk decoder) the output of
`encode` over the tree built from `frequencies` of the same text returns
the text. -/
theorem huffman_roundtrip (s : List Char) (hs : s ≠ [])
    (hlen : 2 ≤ (frequencies s).length) :
    ∃ bits, encode (frequencies s) s = .ok bits ∧
      decode bits (create_tree (frequencies s)) = .ok s := by
  have hnd := frequencies_keys_nodup s
  obtain ⟨root, table, hct, htable, hinv, hperm, hmem, hkeys⟩ :=
    build_all (frequencies s)
      (by intro hc; rw [hc] at hlen; simp at hlen) hnd
  obtain ⟨cs0, w0, l0, r0, hrooteq⟩ :=
    root_is_node (frequencies s) hlen root hct hinv hperm
  have hkey_of_mem : ∀ c ∈ s, c ∈ (frequencies s).map Prod.fst :=
    fun c hc => (frequencies_keys_iff s c).mpr hc
  have hcode : ∀ c ∈ s,
      encode_char_by_tree c root
          = some ((encode_char_by_tree c root).getD []) ∧
      (∀ rest, walkDecode root
          ((encode_char_by_tree c root).getD [] ++ rest)
            = Except.ok ([c], rest)) ∧
      (encode_char_by_tree c root).getD [] ≠ [] := by
    intro c hc
    obtain ⟨p, hp, hwalk⟩ := encode_walk c root hinv
      (hperm.mem_iff.mpr (hkey_of_mem c hc))
    have hfc : (encode_char_by_tree c root).getD [] = p := by
      rw [hp]; rfl
    rw [hfc]
    refine ⟨hp, hwalk, ?_⟩
    rw [hrooteq] at hp hinv
    exact node_code_ne_nil cs0 w0 l0 r0 hinv c p hp
  have hget : ∀ c ∈ s,
      table_get table c = some ((encode_char_by_tree c root).getD []) := by
    intro c hc
    obtain ⟨q, hq⟩ := table_get_isSome table c
      (by rw [hkeys]; exact hkey_of_mem c hc)
    have hqcode : encode_char_by_tree c root = some q :=
      hmem (c, q) (table_get_mem table c q hq)
    rw [hq, hqcode]
    rfl
  refine ⟨((s.map
    (fun c => (encode_char_by_tree c root).getD [])).flatten), ?_, ?_⟩
  · unfold encode
    rw [if_neg (by omega)]
    simp only [hct, htable]
    exact encode_with_table_flat table _ s hget
  · rw [hct]
    show decodeLoop root _ _ = Except.ok s
    exact decodeLoop_concat root _ s
      (fun c hc => ⟨(hcode c hc).2.1, (hcode c hc).2.2⟩) _ (le_refl _)

/-- Witness for C1 at the concrete text `"ab"`. -/
theorem huffman_roundtrip_witness :
    (['a', 'b'] : List Char) ≠ [] ∧
    2 ≤ (frequencies ['a', 'b']).length ∧
    ∃ bits, encode (frequencies ['a', 'b']) ['a', 'b'] = .ok bits ∧
      decode bits (create_tree (frequencies ['a', 'b'])) = .ok ['a', 'b'] :=
  ⟨by decide, by decide,
    huffman_roundtrip ['a', 'b'] (by decide) (by decide)⟩

/-- C5.  For every text whose frequency table (built from the text
itself) has at least two entries, the encoded bit length is the sum over
the table entries of `count * length of that symbol's code in the
derived code table`. -/
theorem encoded_length_weighted_sum (s : List Char)
    (hlen : 2 ≤ (frequencies s).length) :
    ∃ root table bits, create_tree (frequencies s) = some root ∧
      h_tree_to_table root (frequencies s) = some table ∧
      encode (frequencies s) s = .ok bits ∧
      bits.length = ((frequencies s).map
        (fun p => p.2 * ((table_get table p.1).getD []).length)).sum := by
  have hnd := frequencies_keys_nodup s
  obtain ⟨root, table, hct, htable, hinv, hperm, hmem, hkeys⟩ :=
    build_all (frequencies s)
      (by intro hc; rw [hc] at hlen; simp at hlen) hnd
  have hkey_of_mem : ∀ c ∈ s, c ∈ (frequencies s).map Prod.fst :=
    fun c hc => (frequencies_keys_iff s c).mpr hc
  have hget : ∀ c ∈ (frequencies s).map Prod.fst,
      table_get table c = some ((encode_char_by_tree c root).getD []) := by
    intro c hc
    obtain ⟨q, hq⟩ := table_get_isSome table c (by rw [hkeys]; exact hc)
    have hqcode : encode_char_by_tree c root = some q :=
      hmem (c, q) (table_get_mem table c q hq)
    rw [hq, hqcode]
    rfl
  have henc : encode (frequencies s) s = .ok ((s.map
      (fun c => (encode_char_by_tree c root).getD [])).flatten) := by
    unfold encode
    rw [if_neg (by omega)]
    simp only [hct, htable]
    exact encode_with_table_flat table _ s
      (fun c hc => hget c (hkey_of_mem c hc))
  refine ⟨root, table, _, hct, htable, henc, ?_⟩

  rw [List.length_flatten, List.map_map]
  rw [show (List.length ∘ fun c => (encode_char_by_tree c root).getD []) =
      (fun c => ((encode_char_by_tree c root).getD []).length) from rfl]
  have hsum := sum_weighted ((frequencies s).map Prod.fst) s
    (fun c => ((encode_char_by_tree c root).getD []).length) hnd
    hkey_of_mem
  rw [hsum, List.map_map]
  refine congrArg List.sum (List.map_congr_left ?_)
  intro p hp
  have hcount := (freqLoop_pairs s s [] p hp).1
  have hgetp := hget p.1 (List.mem_map.mpr ⟨p, hp, rfl⟩)
  simp only [Function.comp_apply, hgetp, Option.getD_some]
  rw [hcount]

/-- Witness for C5 at the concrete text `"aab"`. -/
theorem encoded_length_weighted_sum_witness :
    2 ≤ (frequencies ['a', 'a', 'b']).length ∧
    ∃ root table bits,
      create_tree (frequencies ['a', 'a', 'b']) = some root ∧
      h_tree_to_table root (frequencies ['a', 'a', 'b']) = some table ∧
      encode (frequencies ['a', 'a', 'b']) ['a', 'a', 'b'] = .ok bits ∧
      bits.length = ((frequencies ['a', 'a', 'b']).map
        (fun p => p.2 * ((table_get table p.1).getD []).length)).sum :=
  ⟨by decide, encoded_length_weighted_sum ['a', 'a', 'b'] (by decide)⟩

/-! ## The heap-order invariant of the `heapq` model -/

theorem node_lt_false_iff (a b : HNode) :
    node_lt a b = false ↔ b.weight ≤ a.weight := by
  simp [node_lt]

theorem node_lt_true_iff (a b : HNode) :
    node_lt a b = true ↔ a.weight < b.weight := by
  simp [node_lt]

theorem wgt_eq_of_getElem (l : List HNode) (i : Nat) (x : HNode)
    (h : l[i]? = some x) : wgt l i = x.weight := by
  obtain ⟨hi, he⟩ := List.getElem?_eq_some_iff.mp h
  unfold wgt
  rw [List.getD_eq_getElem _ _ hi, he]

theorem wgt_set_ne (l : List HNode) (p : Nat) (x : HNode) (j : Nat)
    (h : j ≠ p) : wgt (l.set p x) j = wgt l j := by
  unfold wgt
  by_cases hj : j < l.length
  · rw [List.getD_eq_getElem _ _ (by simpa using hj),
      List.getD_eq_getElem _ _ hj,
      List.getElem_set_ne (fun hc => h hc.symm)]
  · rw [List.getD_eq_default _ _ (by simpa using hj),
      List.getD_eq_default _ _ (by omega)]

theorem wgt_set_self (l : List HNode) (p : Nat) (x : HNode)
    (hp : p < l.length) : wgt (l.set p x) p = x.weight := by
  unfold wgt
  rw [List.getD_eq_getElem _ _ (by simpa using hp)]
  simp

theorem isAncestor_refl (s : Nat) : isAncestor s s := by
  rw [isAncestor]
  simp

theorem isAncestor_le (s pos : Nat) (h : isAncestor s pos) : s ≤ pos := by
  rw [isAncestor] at h
  split at h
  · omega
  · omega

theorem isAncestor_parent (s pos : Nat) (hlt : s < pos)
    (h : isAncestor s pos) : isAncestor s ((pos - 1) / 2) := by
  rw [isAncestor, if_neg (by omega)] at h
  exact h

theorem isAncestor_zero (pos : Nat) : isAncestor 0 pos := by
  induction pos using Nat.strong_induction_on with
  | _ pos ih =>
      rw [isAncestor]
      split
      · omega
      · exact ih ((pos - 1) / 2) (by omega)

theorem wgt_eq (l : List HNode) (i : Nat) (h : i < l.length) :
    wgt l i = l[i].weight := by
  unfold wgt
  rw [List.getD_eq_getElem _ _ h]

theorem isAncestor_child (s pos c : Nat) (h : isAncestor s pos)
    (hgt : pos < c) (hc : (c - 1) / 2 = pos) : isAncestor s c := by
  have hsp := isAncestor_le s pos h
  rw [isAncestor, if_neg (by omega), hc]
  exact h

/-- Placing the carried item into the hole yields an ordered heap, when
the array is ordered away from the hole, the hole's children dominate the
item, and (if the hole is below `startpos`) so does the hole's parent. -/
theorem heapOrd_set_exit (l : List HNode) (s : Nat) (v : HNode) (pos : Nat)
    (hpos : pos < l.length)
    (hG1 : ∀ i j, i < l.length → j < l.length →
      (j = 2 * i + 1 ∨ j = 2 * i + 2) →
      s ≤ i → i ≠ pos → j ≠ pos → wgt l i ≤ wgt l j)
    (hG2 : ∀ j, j < l.length → (j = 2 * pos + 1 ∨ j = 2 * pos + 2) →
      v.weight ≤ wgt l j)
    (hpar : s < pos → wgt l ((pos - 1) / 2) ≤ v.weight) :
    heapOrdFrom s (l.set pos v) := by
  intro i hi j hj hchld hsi
  rw [List.length_set] at hi hj
  by_cases hipos : i = pos
  · subst hipos
    rw [wgt_set_self l i v hpos, wgt_set_ne l i v j (by omega)]
    exact hG2 j hj hchld
  · by_cases hjpos : j = pos
    · subst hjpos
      have hieq : i = (j - 1) / 2 := by omega
      have hsj : s < j := by omega
      rw [wgt_set_ne l j v i hipos, wgt_set_self l j v hpos, hieq]
      exact hpar hsj
    · rw [wgt_set_ne l pos v i hipos, wgt_set_ne l pos v j hjpos]
      exact hG1 i j hi hj hchld hsi hipos hjpos

/-- `_siftdown` (the bubble-up pass) leaves the heap ordered from
`startpos` on, provided the array is ordered away from the hole at
`pos`, the hole's children dominate both the carried item and the hole's
parent, the hole lies below `startpos`, and the fuel is at least `pos`
(which every caller supplies). -/
theorem siftdownLoop_heapOrd :
    ∀ (fuel : Nat) (l : List HNode) (s : Nat) (v : HNode) (pos : Nat),
      pos ≤ fuel → pos < l.length → isAncestor s pos →
      (∀ i j, i < l.length → j < l.length →
        (j = 2 * i + 1 ∨ j = 2 * i + 2) →
        s ≤ i → i ≠ pos → j ≠ pos → wgt l i ≤ wgt l j) →
      (∀ j, j < l.length → (j = 2 * pos + 1 ∨ j = 2 * pos + 2) →
        v.weight ≤ wgt l j) →
      (∀ j, j < l.length → (j = 2 * pos + 1 ∨ j = 2 * pos + 2) →
        s < pos → wgt l ((pos - 1) / 2) ≤ wgt l j) →
      heapOrdFrom s (PyHeap.siftdownLoop node_lt l s v pos fuel) := by
  intro fuel
  induction fuel with
  | zero =>
      intro l s v pos hfuel hpos hanc hG1 hG2 hG3
      rw [PyHeap.siftdownLoop]
      exact heapOrd_set_exit l s v pos hpos hG1 hG2 (fun hsp => by omega)
  | succ fuel ih =>
      intro l s v pos hfuel hpos hanc hG1 hG2 hG3
      rw [PyHeap.siftdownLoop]
      by_cases h : s < pos
      · rw [if_pos h]
        split
        · rename_i parent hget
          have hpplen : (pos - 1) / 2 < l.length :=
            (List.getElem?_eq_some_iff.mp hget).1
          have hwpp : wgt l ((pos - 1) / 2) = parent.weight :=
            wgt_eq_of_getElem l _ parent hget
          by_cases hlt : node_lt v parent = true
          · rw [if_pos hlt]
            have hvp : v.weight < parent.weight :=
              (node_lt_true_iff v parent).mp hlt
            have hancpp : isAncestor s ((pos - 1) / 2) :=
              isAncestor_parent s pos h hanc
            have hspp : s ≤ (pos - 1) / 2 := isAncestor_le s _ hancpp
            apply ih
            · omega
            · simpa using hpplen
            · exact hancpp
            · intro i j hi hj hchld hsi hipp hjpp
              rw [List.length_set] at hi hj
              by_cases hipos : i = pos
              · subst hipos
                rw [wgt_set_self l i parent hpos,
                  wgt_set_ne l i parent j (by omega)]
                rw [← hwpp]
                exact hG3 j hj hchld (by omega)
              · have hjpos : j ≠ pos := fun hc => hipp (by omega)
                rw [wgt_set_ne l pos parent i hipos,
                  wgt_set_ne l pos parent j hjpos]
                exact hG1 i j hi hj hchld hsi hipos hjpos
            · intro j hj hchld
              rw [List.length_set] at hj
              by_cases hjpos : j = pos
              · subst hjpos
                rw [wgt_set_self l j parent hpos]
                omega
              · rw [wgt_set_ne l pos parent j hjpos]
                have hppne : (pos - 1) / 2 ≠ pos := by omega
                have h1 : wgt l ((pos - 1) / 2) ≤ wgt l j :=
                  hG1 _ j hpplen hj hchld hspp hppne hjpos
                omega
            · intro j hj hchld hsppstrict
              rw [List.length_set] at hj
              have hancq : isAncestor s ((((pos - 1) / 2) - 1) / 2) :=
                isAncestor_parent s _ hsppstrict hancpp
              have hsq : s ≤ (((pos - 1) / 2) - 1) / 2 :=
                isAncestor_le s _ hancq
              have hqne : (((pos - 1) / 2) - 1) / 2 ≠ pos := by omega
              have hqlen : (((pos - 1) / 2) - 1) / 2 < l.length := by omega
              rw [wgt_set_ne l pos parent _ hqne]
              have hqpp : wgt l ((((pos - 1) / 2) - 1) / 2)
                  ≤ wgt l ((pos - 1) / 2) :=
                hG1 _ _ hqlen hpplen (by omega) hsq (by omega) (by omega)
              by_cases hjpos : j = pos
              · subst hjpos
                rw [wgt_set_self l j parent hpos]
                omega
              · rw [wgt_set_ne l pos parent j hjpos]
                have h2 : wgt l ((pos - 1) / 2) ≤ wgt l j :=
                  hG1 _ j hpplen hj hchld hspp (by omega) hjpos
                omega
          · rw [if_neg hlt]
            have hlt2 : node_lt v parent = false := by
              cases hb : node_lt v parent
              · rfl
              · exact absurd hb hlt
            have hpv : parent.weight ≤ v.weight :=
              (node_lt_false_iff v parent).mp hlt2
            exact heapOrd_set_exit l s v pos hpos hG1 hG2
              (fun hsp => by omega)
        · rename_i hget
          have hnone := List.getElem?_eq_none_iff.mp hget
          exact absurd hpos (by omega)
      · rw [if_neg h]
        exact heapOrd_set_exit l s v pos hpos hG1 hG2 (fun hsp => by omega)

/-- `_siftup` (the descent pass followed by the bubble-up) leaves the
heap ordered from `startpos` on, provided the array is ordered away from
the hole at `pos`, the hole's children dominate the hole's parent, and
the fuel is at least `heap.length - pos` (every caller passes
`heap.length`). -/
theorem siftupLoop_heapOrd :
    ∀ (fuel : Nat) (l : List HNode) (s : Nat) (v : HNode) (pos : Nat),
      l.length - pos ≤ fuel → pos < l.length → isAncestor s pos →
      (∀ i j, i < l.length → j < l.length →
        (j = 2 * i + 1 ∨ j = 2 * i + 2) →
        s ≤ i → i ≠ pos → j ≠ pos → wgt l i ≤ wgt l j) →
      (∀ j, j < l.length → (j = 2 * pos + 1 ∨ j = 2 * pos + 2) →
        s < pos → wgt l ((pos - 1) / 2) ≤ wgt l j) →
      heapOrdFrom s (PyHeap.siftupLoop node_lt l s v pos fuel) := by
  intro fuel
  induction fuel with
  | zero =>
      intro l s v pos hfuel hpos hanc hH1 hH2
      exact absurd hpos (by omega)
  | succ fuel ih =>
      intro l s v pos hfuel hpos hanc hH1 hH2
      rw [PyHeap.siftupLoop]
      split
      · rename_i h
        have hexit : ∀ (cp : Nat) (hcplen : cp < l.length),
            (cp = 2 * pos + 1 ∨ cp = 2 * pos + 2) →
            (∀ j, j < l.length → (j = 2 * pos + 1 ∨ j = 2 * pos + 2) →
              j ≠ cp → wgt l cp ≤ wgt l j) →
            heapOrdFrom s
              (PyHeap.siftupLoop node_lt (l.set pos l[cp]) s v cp fuel) := by
          intro cp hcplen hcp hmin
          have hwcp : wgt (l.set pos l[cp]) pos = wgt l cp := by
            rw [wgt_set_self l pos _ hpos, wgt_eq l _ hcplen]
          apply ih
          · simp only [List.length_set]
            omega
          · simpa using hcplen
          · exact isAncestor_child s pos _ hanc (by omega) (by omega)
          · intro i j hi hj hchld hsi hicp hjcp
            rw [List.length_set] at hi hj
            by_cases hipos : i = pos
            · subst hipos
              rw [hwcp, wgt_set_ne l i _ j (by omega)]
              exact hmin j hj (by omega) hjcp
            · by_cases hjpos : j = pos
              · subst hjpos
                have hieq : i = (j - 1) / 2 := by omega
                have hsj : s < j := by omega
                rw [wgt_set_ne l j _ i hipos, hwcp, hieq]
                exact hH2 _ hcplen hcp hsj
              · rw [wgt_set_ne l pos _ i hipos, wgt_set_ne l pos _ j hjpos]
                exact hH1 i j hi hj hchld hsi hipos hjpos
          · intro j hj hchld hscp
            rw [List.length_set] at hj
            have hpar : (cp - 1) / 2 = pos := by omega
            rw [hpar]
            have hjpos : j ≠ pos := by omega
            rw [hwcp, wgt_set_ne l pos _ j hjpos]
            exact hH1 cp j hcplen hj (by omega)
              (by have := isAncestor_le s pos hanc; omega) (by omega) hjpos
        split
        · rename_i h2
          split
          · rename_i hlt
            apply hexit (2 * pos + 2) h2 (by omega)
            intro j hj hchld hjcp
            have hj1 : j = 2 * pos + 1 := by omega
            subst hj1
            rw [wgt_eq l _ h, wgt_eq l _ h2]
            exact (node_lt_false_iff _ _).mp hlt
          · rename_i hlt
            apply hexit (2 * pos + 1) h (by omega)
            intro j hj hchld hjcp
            have hj1 : j = 2 * pos + 2 := by omega
            subst hj1
            have hlt2 : node_lt l[2 * pos + 1] l[2 * pos + 2] = true := by
              cases hb : node_lt l[2 * pos + 1] l[2 * pos + 2]
              · exact absurd hb hlt
              · rfl
            rw [wgt_eq l _ h, wgt_eq l _ h2]
            exact le_of_lt ((node_lt_true_iff _ _).mp hlt2)
        · rename_i h2
          apply hexit (2 * pos + 1) h (by omega)
          intro j hj hchld hjcp
          omega
      · rename_i h
        apply siftdownLoop_heapOrd
        · omega
        · simpa using hpos
        · exact hanc
        · intro i j hi hj hchld hsi hipos hjpos
          rw [List.length_set] at hi hj
          rw [wgt_set_ne l pos v i hipos, wgt_set_ne l pos v j hjpos]
          exact hH1 i j hi hj hchld hsi hipos hjpos
        · intro j hj hchld
          rw [List.length_set] at hj
          omega
        · intro j hj hchld hsp
          rw [List.length_set] at hj
          omega

theorem siftup_heapOrd (l : List HNode) (pos : Nat)
    (hP : heapOrdFrom (pos + 1) l) :
    heapOrdFrom pos (PyHeap.siftup node_lt l pos) := by
  unfold PyHeap.siftup
  cases hget : l[pos]? with
  | none =>
      show heapOrdFrom pos l
      have hlen := List.getElem?_eq_none_iff.mp hget
      intro i hi j hj hchld hsi
      rcases eq_or_ne i pos with rfl | hne
      · omega
      · exact hP i hi j hj hchld (by omega)
  | some v =>
      show heapOrdFrom pos (PyHeap.siftupLoop node_lt l pos v pos l.length)
      obtain ⟨hpos, hv⟩ := List.getElem?_eq_some_iff.mp hget
      apply siftupLoop_heapOrd
      · omega
      · exact hpos
      · exact isAncestor_refl pos
      · intro i j hi hj hchld hsi hipos hjpos
        exact hP i hi j hj hchld (by omega)
      · intro j hj hchld hsp
        omega

theorem heapifyLoop_heapOrd : ∀ (k : Nat) (l : List HNode),
    heapOrdFrom k l → heapOrdFrom 0 (PyHeap.heapifyLoop node_lt l k) := by
  intro k
  induction k with
  | zero => exact fun l h => h
  | succ k ih =>
      intro l h
      rw [PyHeap.heapifyLoop]
      exact ih _ (siftup_heapOrd l k h)

theorem heapify_heapOrd (l : List HNode) :
    heapOrd (PyHeap.heapify node_lt l) := by
  unfold heapOrd PyHeap.heapify
  apply heapifyLoop_heapOrd
  intro i hi j hj hchld hki
  omega

theorem wgt_append (l : List HNode) (x : HNode) (k : Nat)
    (hk : k < l.length) : wgt (l ++ [x]) k = wgt l k := by
  rw [wgt_eq _ _ (by simp; omega), wgt_eq l _ hk,
    List.getElem_append_left hk]

theorem heappush_heapOrd (l : List HNode) (x : HNode) (h : heapOrd l) :
    heapOrd (PyHeap.heappush node_lt l x) := by
  unfold PyHeap.heappush heapOrd
  apply siftdownLoop_heapOrd
  · exact le_refl l.length
  · simp
  · exact isAncestor_zero l.length
  · intro i j hi hj hchld hsi hipos hjpos
    rw [List.length_append, List.length_singleton] at hi hj
    have hil : i < l.length := by omega
    have hjl : j < l.length := by omega
    rw [wgt_append l x i hil, wgt_append l x j hjl]
    exact h i hil j hjl hchld (by omega)
  · intro j hj hchld
    rw [List.length_append, List.length_singleton] at hj
    omega
  · intro j hj hchld hsp
    rw [List.length_append, List.length_singleton] at hj
    omega

theorem heapOrd_root_min (l : List HNode) (h : heapOrd l) :
    ∀ k, k < l.length → wgt l 0 ≤ wgt l k := by
  intro k
  induction k using Nat.strong_induction_on with
  | _ k ih =>
      intro hk
      rcases Nat.eq_zero_or_pos k with rfl | hkpos
      · exact le_refl _
      · have hpar := h ((k - 1) / 2) (by omega) k hk (by omega) (by omega)
        have hroot := ih ((k - 1) / 2) (by omega) (by omega)
        omega

theorem heappop_min (l : List HNode) (h : heapOrd l) (r : HNode)
    (rest : List HNode)
    (hpop : PyHeap.heappop node_lt l = some (r, rest)) :
    (∀ x ∈ l, r.weight ≤ x.weight) ∧ heapOrd rest := by
  rcases List.eq_nil_or_concat l with rfl | ⟨ys, y, rfl⟩
  · rw [PyHeap.heappop_nil] at hpop
    cases hpop
  · rw [List.concat_eq_append] at h hpop ⊢
    cases ys with
    | nil =>
        rw [List.nil_append] at h hpop ⊢
        rw [PyHeap.heappop_single] at hpop
        injection hpop with hpop
        injection hpop with h1 h2
        subst h1
        subst h2
        constructor
        · intro x hx
          rcases List.mem_singleton.mp hx with rfl
          exact le_refl _
        · intro i hi j hj hchld hsi
          simp at hj
    | cons z ys =>
        rw [PyHeap.heappop_cons_concat] at hpop
        injection hpop with hpop
        injection hpop with h1 h2
        subst h1
        subst h2
        constructor
        · intro x hx
          obtain ⟨k, hk, hkx⟩ := List.mem_iff_getElem.mp hx
          have hmin := heapOrd_root_min _ h k hk
          rw [wgt_eq _ 0 (by simp), wgt_eq _ k hk, hkx] at hmin
          simpa using hmin
        · apply siftup_heapOrd
          intro i hi j hj hchld h1i
          simp only [List.length_cons] at hi hj
          have hw : ∀ k, 1 ≤ k → k < ys.length + 1 →
              wgt (y :: ys) k = wgt (z :: ys ++ [y]) k := by
            intro k h1 h2
            cases k with
            | zero => omega
            | succ k' =>
                rw [wgt_eq _ _ (by simpa using h2),
                  wgt_eq _ _ (by simp; omega)]
                have hb : k' + 1 < (z :: ys).length := by
                  simp only [List.length_cons]
                  omega
                rw [List.getElem_append_left hb]
                simp only [List.getElem_cons_succ]
          rw [hw i (by omega) hi, hw j (by omega) hj]
          exact h i
            (by simp only [List.length_cons, List.length_append,
                  List.length_singleton]
                omega)
            j
            (by simp only [List.length_cons, List.length_append,
                  List.length_singleton]
                omega)
            hchld (by omega)

/-- C8 (counterexample to the stated tie-break).  On the frequency table
`a:2, b:1, c:1`, the first pop after `heapify` returns the leaf `'c'`
(created third) even though the equal-weight leaf `'b'` was created
earlier — the tie is not broken by creation order, oldest first.
Consequently the code table differs from the oldest-first prediction
(`b = 10`, `c = 11`): the program assigns `b = 11` and `c = 10`. -/
theorem heapq_tie_break_counterexample :
    (PyHeap.heappop node_lt (PyHeap.heapify node_lt
        [HNode.leaf ['a'] 2, HNode.leaf ['b'] 1, HNode.leaf ['c'] 1])).map
          (fun pr => pr.1)
      = some (HNode.leaf ['c'] 1) ∧
    (HNode.leaf ['b'] 1).weight = (HNode.leaf ['c'] 1).weight ∧
    HNode.leaf ['b'] 1 ≠ HNode.leaf ['c'] 1 ∧
    (create_tree [('a', 2), ('b', 1), ('c', 1)]).bind
        (fun r => h_tree_to_table r [('a', 2), ('b', 1), ('c', 1)])
      = some [('a', [false]), ('b', [true, true]), ('c', [true, false])] := by
  decide

/-- C8 (amended).  The priority queue of `create_tree` pops nodes in
weight order: `heapify` establishes the min-heap invariant, `heappush`
preserves it, and `heappop` on an invariant-satisfying heap returns a
node of minimum weight and preserves the invariant.  (The pop sequence
is a pure function of the frequency table, hence identical across runs;
only the tie-break between equal weights is given by the heap's array
layout rather than by creation order.) -/
theorem heap_pops_in_weight_order :
    (∀ l : List HNode, heapOrd (PyHeap.heapify node_lt l)) ∧
    (∀ (l : List HNode) (x : HNode), heapOrd l →
      heapOrd (PyHeap.heappush node_lt l x)) ∧
    (∀ (l : List HNode) (r : HNode) (rest : List HNode), heapOrd l →
      PyHeap.heappop node_lt l = some (r, rest) →
      (∀ x ∈ l, r.weight ≤ x.weight) ∧ heapOrd rest) :=
  ⟨heapify_heapOrd,
    fun l x h => heappush_heapOrd l x h,
    fun l r rest h hpop => heappop_min l h r rest hpop⟩

/-- Witness for the amended C8 on a concrete two-element heap with a
pushed third element. -/
theorem heap_pops_in_weight_order_witness :
    heapOrd [HNode.leaf ['b'] 1, HNode.leaf ['a'] 2] ∧
    heapOrd (PyHeap.heappush node_lt
      [HNode.leaf ['b'] 1, HNode.leaf ['a'] 2] (HNode.leaf ['c'] 3)) ∧
    PyHeap.heappop node_lt [HNode.leaf ['b'] 1, HNode.leaf ['a'] 2]
      = some (HNode.leaf ['b'] 1, [HNode.leaf ['a'] 2]) ∧
    (∀ x ∈ [HNode.leaf ['b'] 1, HNode.leaf ['a'] 2],
      (HNode.leaf ['b'] 1).weight ≤ x.weight) ∧
    heapOrd [HNode.leaf ['a'] 2] :=
  ⟨by decide,
    heap_pops_in_weight_order.2.1
      [HNode.leaf ['b'] 1, HNode.leaf ['a'] 2] (HNode.leaf ['c'] 3)
      (by decide),
    by decide,
    (heap_pops_in_weight_order.2.2
      [HNode.leaf ['b'] 1, HNode.leaf ['a'] 2] (HNode.leaf ['b'] 1)
      [HNode.leaf ['a'] 2] (by decide) (by decide)).1,
    (heap_pops_in_weight_order.2.2
      [HNode.leaf ['b'] 1, HNode.leaf ['a'] 2] (HNode.leaf ['b'] 1)
      [HNode.leaf ['a'] 2] (by decide) (by decide)).2⟩

/-! ## Optimality of the built code: the abstract merge cost -/

theorem hcost_card_le_one (ms : Multiset Nat) (h : ms.card ≤ 1) :
    hcost ms = 0 := by
  rw [hcost, dif_pos h]

/-- `hcost` satisfies its defining recursion for *any* choice of two
minimal elements, not just the ones `Multiset.sort` puts first: the two
smallest values of a multiset are determined, so any two extracted minima
agree with the sorted head values. -/
theorem hcost_merge_min (ms : Multiset Nat) (a b : Nat)
    (hcard : 2 ≤ ms.card) (ha : a ∈ ms) (hamin : ∀ x ∈ ms, a ≤ x)
    (hb : b ∈ ms.erase a) (hbmin : ∀ x ∈ ms.erase a, b ≤ x) :
    hcost ms = a + b + hcost ((a + b) ::ₘ ((ms.erase a).erase b)) := by
  rw [hcost, dif_neg (by omega)]
  split
  · rename_i hs
    exfalso
    have hl := congrArg List.length hs
    rw [Multiset.length_sort] at hl
    simp only [List.length_nil] at hl
    omega
  · rename_i x hs
    exfalso
    have hl := congrArg List.length hs
    rw [Multiset.length_sort] at hl
    simp only [List.length_cons, List.length_nil] at hl
    omega
  · rename_i a0 b0 t hs
    have h1 : (↑(a0 :: b0 :: t) : Multiset Nat) = ms := by
      rw [← hs]; exact Multiset.sort_eq _ _
    have hsorted : (a0 :: b0 :: t).Sorted (· ≤ ·) := by
      rw [← hs]; exact Multiset.sort_sorted _ _
    obtain ⟨ha0le, hsorted2⟩ := List.sorted_cons.mp hsorted
    obtain ⟨hb0le, hsorted3⟩ := List.sorted_cons.mp hsorted2
    have ha0mem : a0 ∈ ms := by
      rw [← h1]
      exact Multiset.mem_coe.mpr (List.mem_cons_self _ _)
    have haa0 : a = a0 := by
      have h2 : a ≤ a0 := hamin a0 ha0mem
      have h3 : a0 ≤ a := by
        have hmem : a ∈ (a0 :: b0 :: t) := by
          rw [← Multiset.mem_coe, h1]; exact ha
        rcases List.mem_cons.mp hmem with rfl | hmem2
        · exact le_refl a
        · exact ha0le a hmem2
      omega
    have herase : ms.erase a = (↑(b0 :: t) : Multiset Nat) := by
      rw [haa0, ← h1, ← Multiset.cons_coe, Multiset.erase_cons_head]
    have hb0mem : b0 ∈ ms.erase a := by
      rw [herase]
      exact Multiset.mem_coe.mpr (List.mem_cons_self _ _)
    have hbb0 : b = b0 := by
      have h2 : b ≤ b0 := hbmin b0 hb0mem
      have h3 : b0 ≤ b := by
        have hmem : b ∈ (b0 :: t) := by
          rw [← Multiset.mem_coe, ← herase]; exact hb
        rcases List.mem_cons.mp hmem with rfl | hmem2
        · exact le_refl b
        · exact hb0le b hmem2
      omega
    rw [haa0, hbb0]

theorem hcost_pair_le (a b : Nat) (hab : a ≤ b) :
    hcost ({a, b} : Multiset Nat) = a + b := by
  have herase : ({a, b} : Multiset Nat).erase a = {b} := by
    rw [Multiset.insert_eq_cons, Multiset.erase_cons_head]
  have h := hcost_merge_min {a, b} a b (by simp) (by simp)
    (by intro x hx
        simp only [Multiset.insert_eq_cons, Multiset.mem_cons,
          Multiset.mem_singleton] at hx
        rcases hx with rfl | rfl
        · exact le_refl _
        · exact hab)
    (by rw [herase]; simp)
    (by intro x hx
        rw [herase, Multiset.mem_singleton] at hx
        rw [hx])
  rw [h, herase, Multiset.erase_singleton, Multiset.cons_zero,
    hcost_card_le_one _ (by simp)]
  omega

theorem hcost_pair (a b : Nat) : hcost ({a, b} : Multiset Nat) = a + b := by
  rcases le_total a b with h | h
  · exact hcost_pair_le a b h
  · rw [show ({a, b} : Multiset Nat) = {b, a} by
      simp only [Multiset.insert_eq_cons]
      exact Multiset.cons_swap a b {}]
    rw [hcost_pair_le b a h, Nat.add_comm]

/-! ## Optimality: abstract prefix-free assignments -/

theorem itemsCost_cons (p : Nat × List Bool) (l : List (Nat × List Bool)) :
    itemsCost (p :: l) = p.1 * p.2.length + itemsCost l := by
  simp [itemsCost]

theorem itemsLen_cons (p : Nat × List Bool) (l : List (Nat × List Bool)) :
    itemsLen (p :: l) = p.2.length + itemsLen l := by
  simp [itemsLen]

theorem wsItems_cons (p : Nat × List Bool) (l : List (Nat × List Bool)) :
    wsItems (p :: l) = p.1 ::ₘ wsItems l := rfl

theorem itemsCost_perm {l1 l2 : List (Nat × List Bool)} (h : l1.Perm l2) :
    itemsCost l1 = itemsCost l2 :=
  (h.map _).sum_eq

theorem itemsLen_perm {l1 l2 : List (Nat × List Bool)} (h : l1.Perm l2) :
    itemsLen l1 = itemsLen l2 :=
  (h.map _).sum_eq

theorem wsItems_perm {l1 l2 : List (Nat × List Bool)} (h : l1.Perm l2) :
    wsItems l1 = wsItems l2 := by
  unfold wsItems
  exact Multiset.coe_eq_coe.mpr (h.map _)

theorem wsItems_card (l : List (Nat × List Bool)) :
    (wsItems l).card = l.length := by
  simp [wsItems]

theorem pairNP_symm {p q : Nat × List Bool} (h : pairNP p q) : pairNP q p :=
  ⟨h.2, h.1⟩

/-- `pairNP` only looks at the codes. -/
theorem pairNP_of_snd {p q p' q' : Nat × List Bool} (h : pairNP p q)
    (h1 : p.2 = p'.2) (h2 : q.2 = q'.2) : pairNP p' q' := by
  unfold pairNP at h ⊢
  rw [← h1, ← h2]
  exact h

theorem okItems_of_perm {l1 l2 : List (Nat × List Bool)} (h : l1.Perm l2)
    (hok : okItems l1) : okItems l2 := by
  unfold okItems at hok ⊢
  exact (h.pairwise_iff (fun h' => pairNP_symm h')).mp hok

/-- Extract an element of minimal weight to the front, by a permutation. -/
theorem exists_min_fst : ∀ (l : List (Nat × List Bool)), l ≠ [] →
    ∃ p l', l.Perm (p :: l') ∧ ∀ x ∈ l, p.1 ≤ x.1 := by
  intro l
  induction l with
  | nil => intro h; exact absurd rfl h
  | cons a l ih =>
      intro _
      cases l with
      | nil =>
          refine ⟨a, [], List.Perm.refl _, ?_⟩
          intro x hx
          rw [List.mem_singleton] at hx
          rw [hx]
      | cons b l2 =>
          obtain ⟨p, l', hperm, hmin⟩ := ih (by simp)
          rcases le_or_lt a.1 p.1 with hle | hlt
          · refine ⟨a, b :: l2, List.Perm.refl _, ?_⟩
            intro x hx
            rcases List.mem_cons.mp hx with rfl | hx2
            · exact le_refl _
            · exact le_trans hle (hmin x hx2)
          · refine ⟨p, a :: l', ?_, ?_⟩
            · exact (List.Perm.cons a hperm).trans (List.Perm.swap p a l')
            · intro x hx
              rcases List.mem_cons.mp hx with rfl | hx2
              · exact le_of_lt hlt
              · exact hmin x hx2

/-- Extract an element of maximal code length to the front, by a
permutation. -/
theorem exists_max_len : ∀ (l : List (Nat × List Bool)), l ≠ [] →
    ∃ p l', l.Perm (p :: l') ∧ ∀ x ∈ l, x.2.length ≤ p.2.length := by
  intro l
  induction l with
  | nil => intro h; exact absurd rfl h
  | cons a l ih =>
      intro _
      cases l with
      | nil =>
          refine ⟨a, [], List.Perm.refl _, ?_⟩
          intro x hx
          rw [List.mem_singleton] at hx
          rw [hx]
      | cons b l2 =>
          obtain ⟨p, l', hperm, hmax⟩ := ih (by simp)
          rcases le_or_lt p.2.length a.2.length with hle | hlt
          · refine ⟨a, b :: l2, List.Perm.refl _, ?_⟩
            intro x hx
            rcases List.mem_cons.mp hx with rfl | hx2
            · exact le_refl _
            · exact le_trans (hmax x hx2) hle
          · refine ⟨p, a :: l', ?_, ?_⟩
            · exact (List.Perm.cons a hperm).trans (List.Perm.swap p a l')
            · intro x hx
              rcases List.mem_cons.mp hx with rfl | hx2
              · exact le_of_lt hlt
              · exact hmax x hx2

/-- Exchanging the codes of the two front items cannot increase the cost
when the lighter item receives the longer code. -/
theorem itemsCost_swap_le (wa wb : Nat) (ca cb : List Bool)
    (tl : List (Nat × List Bool)) (hw : wa ≤ wb)
    (hl : ca.length ≤ cb.length) :
    itemsCost ((wa, cb) :: (wb, ca) :: tl)
      ≤ itemsCost ((wa, ca) :: (wb, cb) :: tl) := by
  simp only [itemsCost_cons]
  have h := mul_add_mul_le_mul_add_mul hw hl
  omega

/-- Exchanging the codes of the two front items preserves
prefix-freeness. -/
theorem okItems_swap (wa wb : Nat) (ca cb : List Bool)
    (tl : List (Nat × List Bool))
    (h : okItems ((wa, ca) :: (wb, cb) :: tl)) :
    okItems ((wa, cb) :: (wb, ca) :: tl) := by
  unfold okItems at h ⊢
  rw [List.pairwise_cons, List.pairwise_cons] at h ⊢
  obtain ⟨h1, h2, h3⟩ := h
  refine ⟨?_, ?_, h3⟩
  · intro x hx
    rcases List.mem_cons.mp hx with rfl | hx2
    · exact pairNP_of_snd
        (pairNP_symm (h1 (wb, cb) (List.mem_cons_self _ _))) rfl rfl
    · exact pairNP_of_snd (h2 x hx2) rfl rfl
  · intro x hx
    exact pairNP_of_snd (h1 x (List.mem_cons_of_mem _ hx)) rfl rfl

/-- With at least two items, prefix-freeness forces every code to be
non-empty (the empty code is a prefix of every code). -/
theorem okItems_codes_ne_nil {items : List (Nat × List Bool)}
    (hok : okItems items) (h2 : 2 ≤ items.length) :
    ∀ p ∈ items, p.2 ≠ [] := by
  cases items with
  | nil => simp at h2
  | cons a l =>
      cases l with
      | nil => simp at h2
      | cons b l2 =>
          unfold okItems at hok
          rw [List.pairwise_cons] at hok
          obtain ⟨h1, _⟩ := hok
          intro p hp
          rcases List.mem_cons.mp hp with rfl | hp2
          · have hab := h1 b (List.mem_cons_self _ _)
            intro hnil
            apply hab.1
            rw [hnil]
            exact List.nil_prefix
          · have hax := h1 p hp2
            intro hnil
            apply hax.2
            rw [hnil]
            exact List.nil_prefix

/-- A code bounded in length by `A` and extending `A.dropLast` is either
`A.dropLast` itself or `A.dropLast` plus one final bit. -/
theorem prefix_cases (A c : List Bool) (hA : A ≠ [])
    (hpre : A.dropLast <+: c) (hlen : c.length ≤ A.length) :
    c = A.dropLast ∨ ∃ bit, c = A.dropLast ++ [bit] ∧
      c.length = A.length := by
  obtain ⟨s, hs⟩ := hpre
  have hdl : A.dropLast.length = A.length - 1 := List.length_dropLast A
  have hApos : 0 < A.length := List.length_pos.mpr hA
  have hlens := congrArg List.length hs
  rw [List.length_append, hdl] at hlens
  cases s with
  | nil =>
      left
      rw [← hs, List.append_nil]
  | cons bit s2 =>
      cases s2 with
      | nil =>
          right
          refine ⟨bit, hs.symm, ?_⟩
          simp only [List.length_cons, List.length_nil] at hlens
          omega
      | cons b2 s3 =>
          exfalso
          simp only [List.length_cons] at hlens
          omega

/-- The two-item base case of the lower bound. -/
theorem lb_base (A B : Nat × List Bool) (hok : okItems [A, B]) :
    hcost (wsItems [A, B]) ≤ itemsCost [A, B] := by
  have hne := okItems_codes_ne_nil hok (by simp)
  have hA : 1 ≤ A.2.length := List.length_pos.mpr (hne A (by simp))
  have hB : 1 ≤ B.2.length := List.length_pos.mpr (hne B (by simp))
  have hws : wsItems [A, B] = ({A.1, B.1} : Multiset Nat) := rfl
  rw [hws, hcost_pair]
  simp only [itemsCost, List.map_cons, List.map_nil, List.sum_cons,
    List.sum_nil]
  have h1 : A.1 * 1 ≤ A.1 * A.2.length := Nat.mul_le_mul_left _ hA
  have h2 : B.1 * 1 ≤ B.1 * B.2.length := Nat.mul_le_mul_left _ hB
  omega

/-- The merge step of the exchange argument: if the front item `A` has a
code of maximal length and the second item `B`'s code extends
`A.2.dropLast`, then replacing the two by a single item carrying the
combined weight and the code `A.2.dropLast` keeps the assignment
prefix-free, lowers the cost by exactly `A.1 + B.1`, and strictly
shrinks the total code length. -/
theorem merge_head (A B : Nat × List Bool) (tl : List (Nat × List Bool))
    (hok : okItems (A :: B :: tl))
    (hA : A.2 ≠ [])
    (hmax : ∀ x ∈ A :: B :: tl, x.2.length ≤ A.2.length)
    (hBp : A.2.dropLast <+: B.2) :
    okItems ((A.1 + B.1, A.2.dropLast) :: tl) ∧
    itemsCost (A :: B :: tl)
      = itemsCost ((A.1 + B.1, A.2.dropLast) :: tl) + A.1 + B.1 ∧
    itemsLen ((A.1 + B.1, A.2.dropLast) :: tl) + 2
      ≤ itemsLen (A :: B :: tl) := by
  have hLpos : 0 < A.2.length := List.length_pos.mpr hA
  unfold okItems at hok
  rw [List.pairwise_cons, List.pairwise_cons] at hok
  obtain ⟨h1, h2, h3⟩ := hok
  have hAB : pairNP A B := h1 B (List.mem_cons_self _ _)
  have hBne : B.2 ≠ A.2.dropLast := by
    intro hc
    apply hAB.2
    rw [hc]
    exact List.dropLast_prefix A.2
  rcases prefix_cases A.2 B.2 hA hBp (hmax B (by simp)) with hBeq | hBex
  · exact absurd hBeq hBne
  obtain ⟨bB, hBeq, hBlen⟩ := hBex
  have hAeq : A.2 = A.2.dropLast ++ [A.2.getLast hA] :=
    (List.dropLast_append_getLast hA).symm
  have hABne : A.2 ≠ B.2 := by
    intro hc
    apply hAB.1
    rw [hc]
  have hbits : A.2.getLast hA ≠ bB := by
    intro hc
    apply hABne
    rw [hAeq, hBeq, hc]
  refine ⟨?_, ?_, ?_⟩
  · unfold okItems
    rw [List.pairwise_cons]
    refine ⟨?_, h3⟩
    intro x hx
    have hxA : pairNP A x := h1 x (List.mem_cons_of_mem _ hx)
    have hxB : pairNP B x := h2 x hx
    constructor
    · intro hpx
      rcases prefix_cases A.2 x.2 hA hpx (hmax x (by simp [hx]))
        with hxeq | hxex
      · apply hxA.2
        rw [hxeq]
        exact List.dropLast_prefix A.2
      · obtain ⟨bx, hxeq, hxlen⟩ := hxex
        by_cases hbx : bx = A.2.getLast hA
        · apply hxA.1
          rw [hxeq, hbx, ← hAeq]
        · have hbxB : bx = bB := by
            generalize A.2.getLast hA = bA at hbx hbits
            cases bx <;> cases bB <;> cases bA <;>
              first
                | rfl
                | exact absurd rfl hbx
                | exact absurd rfl hbits
          apply hxB.1
          rw [hxeq, hbxB, ← hBeq]
    · intro hxp
      exact hxA.2 (hxp.trans (List.dropLast_prefix A.2))
  · simp only [itemsCost_cons]
    have hdl : A.2.dropLast.length = A.2.length - 1 :=
      List.length_dropLast A.2
    obtain ⟨L, hL⟩ : ∃ L, A.2.length = L + 1 := ⟨A.2.length - 1, by omega⟩
    rw [hdl, hBlen, hL, Nat.add_sub_cancel]
    ring
  · simp only [itemsLen_cons]
    have hdl : A.2.dropLast.length = A.2.length - 1 :=
      List.length_dropLast A.2
    omega

theorem wsItems_min {items : List (Nat × List Bool)} {a : Nat}
    (h : ∀ x ∈ items, a ≤ x.1) : ∀ x ∈ wsItems items, a ≤ x := by
  intro x hx
  unfold wsItems at hx
  rw [Multiset.mem_coe] at hx
  obtain ⟨y, hy, rfl⟩ := List.mem_map.mp hx
  exact h y hy

/-- The inductive step of the lower bound, after normalisation: the
front item has minimal weight *and* a code of maximal length. -/
theorem lb_core (N : Nat)
    (ih : ∀ items : List (Nat × List Bool), itemsLen items ≤ N →
      2 ≤ items.length → okItems items →
      hcost (wsItems items) ≤ itemsCost items)
    (A : Nat × List Bool) (tl : List (Nat × List Bool))
    (hN : itemsLen (A :: tl) ≤ N + 1)
    (h2 : 2 ≤ (A :: tl).length)
    (hok : okItems (A :: tl))
    (hmin : ∀ x ∈ A :: tl, A.1 ≤ x.1)
    (hmax : ∀ x ∈ A :: tl, x.2.length ≤ A.2.length) :
    hcost (wsItems (A :: tl)) ≤ itemsCost (A :: tl) := by
  have hAne : A.2 ≠ [] :=
    okItems_codes_ne_nil hok h2 A (List.mem_cons_self _ _)
  cases tl with
  | nil => simp at h2
  | cons B0 tl0 =>
  cases tl0 with
  | nil => exact lb_base A B0 hok
  | cons C0 tl1 =>
  -- at least three items: extract a tail item of minimal weight
  obtain ⟨B, tl2, hpermB, hminB⟩ := exists_min_fst (B0 :: C0 :: tl1)
    (by simp)
  have hperm1 : (A :: B0 :: C0 :: tl1).Perm (A :: B :: tl2) :=
    List.Perm.cons A hpermB
  have hok1 : okItems (A :: B :: tl2) := okItems_of_perm hperm1 hok
  have hN1 : itemsLen (A :: B :: tl2) ≤ N + 1 := by
    rw [← itemsLen_perm hperm1]; exact hN
  have hmin1 : ∀ x ∈ A :: B :: tl2, A.1 ≤ x.1 :=
    fun x hx => hmin x (hperm1.mem_iff.mpr hx)
  have hmax1 : ∀ x ∈ A :: B :: tl2, x.2.length ≤ A.2.length :=
    fun x hx => hmax x (hperm1.mem_iff.mpr hx)
  have hminB2 : ∀ x ∈ B :: tl2, B.1 ≤ x.1 :=
    fun x hx => hminB x (hpermB.mem_iff.mpr hx)
  have hlen2 : tl2.length = tl1.length + 1 := by
    have hle := hpermB.length_eq
    simp only [List.length_cons] at hle
    omega
  rw [wsItems_perm hperm1, itemsCost_perm hperm1]
  by_cases hsib : ∃ x ∈ B :: tl2, A.2.dropLast <+: x.2
  · obtain ⟨X, hXmem, hXp⟩ := hsib
    rcases List.mem_cons.mp hXmem with rfl | hXtl
    · -- the second item is the sibling: merge the front two items
      obtain ⟨hok', hcost', hlen'⟩ := merge_head A X tl2 hok1 hAne hmax1 hXp
      have hwsx : wsItems (A :: X :: tl2) = A.1 ::ₘ X.1 ::ₘ wsItems tl2 :=
        rfl
      have herase : (wsItems (A :: X :: tl2)).erase A.1
          = X.1 ::ₘ wsItems tl2 := by
        rw [hwsx, Multiset.erase_cons_head]
      have herase2 : ((wsItems (A :: X :: tl2)).erase A.1).erase X.1
          = wsItems tl2 := by
        rw [herase, Multiset.erase_cons_head]
      have hmrg := hcost_merge_min (wsItems (A :: X :: tl2)) A.1 X.1
        (by rw [wsItems_card]; simp)
        (by rw [hwsx]; exact Multiset.mem_cons_self _ _)
        (wsItems_min hmin1)
        (by rw [herase]; exact Multiset.mem_cons_self _ _)
        (by rw [herase]
            intro x hx
            rcases Multiset.mem_cons.mp hx with rfl | hx2
            · exact le_refl _
            · exact wsItems_min
                (fun y hy => hminB2 y (List.mem_cons_of_mem _ hy)) x hx2)
      rw [hmrg, herase2]
      have hihc := ih ((A.1 + X.1, A.2.dropLast) :: tl2)
        (by have h9 := hlen'
            omega)
        (by simp only [List.length_cons]; omega)
        hok'
      have hws2 : wsItems ((A.1 + X.1, A.2.dropLast) :: tl2)
          = (A.1 + X.1) ::ₘ wsItems tl2 := rfl
      rw [hws2] at hihc
      omega
    · -- the sibling sits deeper in the tail: swap its code with the
      -- second item's code first
      obtain ⟨s1, t1, hst⟩ := List.append_of_mem hXtl
      obtain ⟨tl3, hpermX⟩ : ∃ tl3, tl2.Perm (X :: tl3) :=
        ⟨s1 ++ t1, by rw [hst]; exact List.perm_middle⟩
      have hperm2 : (A :: B :: tl2).Perm (A :: B :: X :: tl3) :=
        List.Perm.cons A (List.Perm.cons B hpermX)
      rw [wsItems_perm hperm2, itemsCost_perm hperm2]
      have hok2 := okItems_of_perm hperm2 hok1
      have hN2 : itemsLen (A :: B :: X :: tl3) ≤ N + 1 := by
        rw [← itemsLen_perm hperm2]; exact hN1
      have hmin2 : ∀ x ∈ A :: B :: X :: tl3, A.1 ≤ x.1 :=
        fun x hx => hmin1 x (hperm2.mem_iff.mpr hx)
      have hmax2 : ∀ x ∈ A :: B :: X :: tl3,
          x.2.length ≤ A.2.length :=
        fun x hx => hmax1 x (hperm2.mem_iff.mpr hx)
      have hXA : pairNP A X := by
        unfold okItems at hok1
        rw [List.pairwise_cons] at hok1
        exact hok1.1 X (List.mem_cons_of_mem _ hXtl)
      have hXne : X.2 ≠ A.2.dropLast := by
        intro hc
        apply hXA.2
        rw [hc]
        exact List.dropLast_prefix A.2
      have hXlen : X.2.length = A.2.length := by
        rcases prefix_cases A.2 X.2 hAne hXp
          (hmax1 X (by simp [hXtl])) with h | hex
        · exact absurd h hXne
        · exact hex.choose_spec.2
      have hok3 : okItems (A :: (B.1, X.2) :: (X.1, B.2) :: tl3) := by
        unfold okItems at hok2 ⊢
        rw [List.pairwise_cons] at hok2 ⊢
        obtain ⟨hh1, hh2⟩ := hok2
        constructor
        · intro x hx
          rcases List.mem_cons.mp hx with rfl | hx2
          · exact pairNP_of_snd (hh1 X (by simp)) rfl rfl
          · rcases List.mem_cons.mp hx2 with rfl | hx3
            · exact pairNP_of_snd (hh1 B (by simp)) rfl rfl
            · exact hh1 x (by simp [hx3])
        · exact okItems_swap B.1 X.1 B.2 X.2 (tl3) hh2
      have hcost3 : itemsCost (A :: (B.1, X.2) :: (X.1, B.2) :: tl3)
          ≤ itemsCost (A :: B :: X :: tl3) := by
        simp only [itemsCost_cons]
        have h9 := itemsCost_swap_le B.1 X.1 B.2 X.2 (tl3)
          (hminB2 X (List.mem_cons_of_mem _ hXtl))
          (by rw [hXlen]; exact hmax1 B (by simp))
        simp only [itemsCost_cons] at h9
        omega
      have hN3 : itemsLen (A :: (B.1, X.2) :: (X.1, B.2) :: tl3)
          ≤ N + 1 := by
        simp only [itemsLen_cons] at hN2 ⊢
        omega
      have hmax3 : ∀ x ∈ A :: (B.1, X.2) :: (X.1, B.2) :: tl3,
          x.2.length ≤ A.2.length := by
        intro x hx
        rcases List.mem_cons.mp hx with rfl | hx2
        · exact le_refl _
        · rcases List.mem_cons.mp hx2 with rfl | hx3
          · exact hmax2 X (by simp)
          · rcases List.mem_cons.mp hx3 with rfl | hx4
            · exact hmax1 B (by simp)
            · exact hmax2 x (by simp [hx4])
      obtain ⟨hok', hcost', hlen'⟩ := merge_head A (B.1, X.2)
        ((X.1, B.2) :: tl3) hok3 hAne hmax3 hXp
      refine le_trans ?_ hcost3
      have hwsx : wsItems (A :: (B.1, X.2) :: (X.1, B.2) :: tl3)
          = A.1 ::ₘ B.1 ::ₘ wsItems ((X.1, B.2) :: tl3) := rfl
      have herase : (wsItems
            (A :: (B.1, X.2) :: (X.1, B.2) :: tl3)).erase A.1
          = B.1 ::ₘ wsItems ((X.1, B.2) :: tl3) := by
        rw [hwsx, Multiset.erase_cons_head]
      have herase2 : ((wsItems
            (A :: (B.1, X.2) :: (X.1, B.2) :: tl3)).erase
              A.1).erase B.1
          = wsItems ((X.1, B.2) :: tl3) := by
        rw [herase, Multiset.erase_cons_head]
      have hmin3 : ∀ x ∈ A :: (B.1, X.2) :: (X.1, B.2) :: tl3,
          A.1 ≤ x.1 := by
        intro x hx
        rcases List.mem_cons.mp hx with rfl | hx2
        · exact le_refl _
        · rcases List.mem_cons.mp hx2 with rfl | hx3
          · exact hmin1 B (by simp)
          · rcases List.mem_cons.mp hx3 with rfl | hx4
            · exact hmin2 X (by simp)
            · exact hmin2 x (by simp [hx4])
      have hmrg := hcost_merge_min
        (wsItems (A :: (B.1, X.2) :: (X.1, B.2) :: tl3)) A.1 B.1
        (by rw [wsItems_card]; simp)
        (by rw [hwsx]; exact Multiset.mem_cons_self _ _)
        (wsItems_min hmin3)
        (by rw [herase]; exact Multiset.mem_cons_self _ _)
        (by rw [herase]
            intro x hx
            rcases Multiset.mem_cons.mp hx with rfl | hx2
            · exact le_refl _
            · refine wsItems_min ?_ x hx2
              intro y hy
              rcases List.mem_cons.mp hy with rfl | hy2
              · exact hminB2 X (List.mem_cons_of_mem _ hXtl)
              · exact hminB2 y (List.mem_cons_of_mem _
                  (hpermX.mem_iff.mpr (List.mem_cons_of_mem _ hy2))))
      show hcost (wsItems (A :: (B.1, X.2) :: (X.1, B.2) :: tl3))
        ≤ itemsCost (A :: (B.1, X.2) :: (X.1, B.2) :: tl3)
      rw [hmrg, herase2]
      have hcost'' : itemsCost (A :: (B.1, X.2) :: (X.1, B.2) :: tl3)
          = itemsCost ((A.1 + B.1, A.2.dropLast)
              :: (X.1, B.2) :: tl3) + A.1 + B.1 := hcost'
      have hlen'' : itemsLen ((A.1 + B.1, A.2.dropLast)
            :: (X.1, B.2) :: tl3) + 2
          ≤ itemsLen (A :: (B.1, X.2) :: (X.1, B.2) :: tl3) := hlen'
      have hihc := ih ((A.1 + B.1, A.2.dropLast)
          :: (X.1, B.2) :: tl3)
        (by omega)
        (by simp only [List.length_cons]; omega)
        hok'
      have hws2 : wsItems ((A.1 + B.1, A.2.dropLast)
            :: (X.1, B.2) :: tl3)
          = (A.1 + B.1) ::ₘ wsItems ((X.1, B.2) :: tl3) := rfl
      rw [hws2] at hihc
      omega
  · -- no code extends `A.2.dropLast`: drop the last bit of `A`'s code
    have hok5 : okItems ((A.1, A.2.dropLast) :: B :: tl2) := by
      unfold okItems at hok1 ⊢
      rw [List.pairwise_cons] at hok1 ⊢
      obtain ⟨hh1, hh2⟩ := hok1
      refine ⟨?_, hh2⟩
      intro x hx
      constructor
      · intro hpx
        exact hsib ⟨x, hx, hpx⟩
      · intro hxp
        exact (hh1 x hx).2 (hxp.trans (List.dropLast_prefix A.2))
    have hcost5 : itemsCost ((A.1, A.2.dropLast) :: B :: tl2)
        ≤ itemsCost (A :: B :: tl2) := by
      simp only [itemsCost_cons]
      have h5 : A.2.dropLast.length ≤ A.2.length := by
        rw [List.length_dropLast]; omega
      have h6 : A.1 * A.2.dropLast.length ≤ A.1 * A.2.length :=
        Nat.mul_le_mul_left _ h5
      omega
    have hN5 : itemsLen ((A.1, A.2.dropLast) :: B :: tl2) ≤ N := by
      simp only [itemsLen_cons] at hN1 ⊢
      have hdl : A.2.dropLast.length = A.2.length - 1 :=
        List.length_dropLast A.2
      have hLpos : 0 < A.2.length := List.length_pos.mpr hAne
      omega
    have hihc := ih ((A.1, A.2.dropLast) :: B :: tl2) hN5
      (by simp) hok5
    have hws5 : wsItems ((A.1, A.2.dropLast) :: B :: tl2)
        = wsItems (A :: B :: tl2) := rfl
    rw [hws5] at hihc
    exact le_trans hihc hcost5

/-- The lower bound: every prefix-free weighted assignment with at least
two items costs at least the Huffman merge cost of its weights. -/
theorem lb_items : ∀ (N : Nat) (items : List (Nat × List Bool)),
    itemsLen items ≤ N → 2 ≤ items.length → okItems items →
    hcost (wsItems items) ≤ itemsCost items := by
  intro N
  induction N with
  | zero =>
      intro items hN h2 hok
      exfalso
      cases items with
      | nil => simp at h2
      | cons a l =>
          have hane : a.2 ≠ [] :=
            okItems_codes_ne_nil hok h2 a (by simp)
          have hpos := List.length_pos.mpr hane
          rw [itemsLen_cons] at hN
          omega
  | succ N ih =>
      intro items hN h2 hok
      have hne : items ≠ [] := by
        intro hc; rw [hc] at h2; simp at h2
      obtain ⟨A0, l1, hpermA, hminA⟩ := exists_min_fst items hne
      rw [wsItems_perm hpermA, itemsCost_perm hpermA]
      have hok1 := okItems_of_perm hpermA hok
      have hN1 : itemsLen (A0 :: l1) ≤ N + 1 := by
        rw [← itemsLen_perm hpermA]; exact hN
      have h21 : 2 ≤ (A0 :: l1).length := by
        rw [← hpermA.length_eq]; exact h2
      have hmin1 : ∀ x ∈ A0 :: l1, A0.1 ≤ x.1 :=
        fun x hx => hminA x (hpermA.mem_iff.mpr hx)
      have hl1ne : l1 ≠ [] := by
        intro hc; rw [hc] at h21; simp at h21
      obtain ⟨X, l2, hpermX, hmaxX⟩ := exists_max_len l1 hl1ne
      have hperm2 : (A0 :: l1).Perm (A0 :: X :: l2) :=
        List.Perm.cons A0 hpermX
      rw [wsItems_perm hperm2, itemsCost_perm hperm2]
      have hok2 := okItems_of_perm hperm2 hok1
      have hN2 : itemsLen (A0 :: X :: l2) ≤ N + 1 := by
        rw [← itemsLen_perm hperm2]; exact hN1
      have hmin2 : ∀ x ∈ A0 :: X :: l2, A0.1 ≤ x.1 :=
        fun x hx => hmin1 x (hperm2.mem_iff.mpr hx)
      have hmaxX2 : ∀ x ∈ X :: l2, x.2.length ≤ X.2.length :=
        fun x hx => hmaxX x (hpermX.mem_iff.mpr hx)
      rcases le_or_lt X.2.length A0.2.length with hle | hlt
      · refine lb_core N ih A0 (X :: l2) hN2 (by simp) hok2 hmin2 ?_
        intro x hx
        rcases List.mem_cons.mp hx with rfl | hx2
        · exact le_refl _
        · exact le_trans (hmaxX2 x hx2) hle
      · have hok3 := okItems_swap A0.1 X.1 A0.2 X.2 l2 hok2
        have hcost3 := itemsCost_swap_le A0.1 X.1 A0.2 X.2 l2
          (hmin2 X (by simp)) (le_of_lt hlt)
        refine le_trans ?_ hcost3
        refine lb_core N ih (A0.1, X.2) ((X.1, A0.2) :: l2) ?_ (by simp)
          hok3 ?_ ?_
        · simp only [itemsLen_cons] at hN2 ⊢
          omega
        · intro x hx
          rcases List.mem_cons.mp hx with rfl | hx2
          · exact le_refl _
          · rcases List.mem_cons.mp hx2 with rfl | hx3
            · exact hmin2 X (by simp)
            · exact hmin2 x (by simp [hx3])
        · intro x hx
          rcases List.mem_cons.mp hx with rfl | hx2
          · exact le_refl _
          · rcases List.mem_cons.mp hx2 with rfl | hx3
            · exact le_of_lt hlt
            · exact le_trans (hmaxX2 x (List.mem_cons_of_mem _ hx3))
                (le_refl _)

/-! ## Optimality: the cost of the built tree -/

theorem pairsOf_perm {h1 h2 : List HNode} (h : h1.Perm h2) :
    pairsOf h1 = pairsOf h2 := by
  unfold pairsOf
  rw [Multiset.coe_eq_coe.mpr h]

theorem pairsOf_cons (t : HNode) (h : List HNode) :
    pairsOf (t :: h)
      = (t.leafPairs : Multiset (List Char × Nat)) + pairsOf h := by
  simp [pairsOf]

theorem mergeLoop_pairs (fuel : Nat) (heap : List HNode) :
    pairsOf (mergeLoop fuel heap) = pairsOf heap := by
  induction fuel generalizing heap with
  | zero => rfl
  | succ fuel ih =>
      by_cases hlen : heap.length > 1
      · rw [mergeLoop, if_pos hlen]
        obtain ⟨l1, hp1, hpop1⟩ := PyHeap.heappop_isSome node_lt heap
          (by intro hc; rw [hc] at hlen; simp at hlen)
        have hperm1 := PyHeap.heappop_perm node_lt heap l1 hp1 hpop1
        have hlen1 := PyHeap.heappop_length node_lt heap l1 hp1 hpop1
        obtain ⟨r1, hp2, hpop2⟩ := PyHeap.heappop_isSome node_lt hp1
          (by intro hc; rw [hc] at hlen1; simp at hlen1; omega)
        have hperm2 := PyHeap.heappop_perm node_lt hp1 r1 hp2 hpop2
        simp only [hpop1, hpop2]
        rw [ih]
        rw [pairsOf_perm (PyHeap.heappush_perm node_lt hp2 _), pairsOf_cons,
          pairsOf_perm hperm1, pairsOf_cons, pairsOf_perm hperm2,
          pairsOf_cons]
        simp only [HNode.leafPairs]
        rw [← Multiset.coe_add]
        rw [add_assoc]
      · rw [mergeLoop, if_neg hlen]

theorem pairsOf_leaves (freq : List (Char × Nat)) :
    pairsOf (freq.map (fun p => HNode.leaf [p.1] p.2))
      = ((freq.map (fun p => ([p.1], p.2)) : List (List Char × Nat))
          : Multiset (List Char × Nat)) := by
  induction freq with
  | nil => rfl
  | cons p rest ih =>
      rw [List.map_cons, pairsOf_cons, ih, List.map_cons]
      simp [HNode.leafPairs]

theorem HNode.weight_eq_wsum (t : HNode) (h : t.builtInv) :
    t.weight = t.wsum := by
  induction t with
  | leaf cs w => rfl
  | node cs w l r ihl ihr =>
      obtain ⟨hcs, hw, hl, hr⟩ := h
      show w = l.wsum + r.wsum
      rw [hw, ihl hl, ihr hr]

theorem HNode.wOf_zero (c : Char) (t : HNode) (h : c ∉ t.leafSyms) :
    t.wOf c = 0 := by
  induction t with
  | leaf cs w =>
      simp only [HNode.leafSyms] at h
      simp only [HNode.wOf]
      rw [if_neg]
      intro hc
      rw [hc] at h
      exact h (List.mem_singleton_self c)
  | node cs w l r ihl ihr =>
      simp only [HNode.leafSyms, List.mem_append] at h
      push_neg at h
      simp only [HNode.wOf]
      rw [ihl h.1, ihr h.2]

theorem sum_map_addf {α : Type} (l : List α) (f g : α → Nat) :
    (l.map (fun x => f x + g x)).sum = (l.map f).sum + (l.map g).sum := by
  induction l with
  | nil => rfl
  | cons a l ih =>
      simp only [List.map_cons, List.sum_cons, ih]
      ring

/-- Summing the per-symbol leaf weights over the (duplicate-free) leaf
symbols recovers the total leaf weight. -/
theorem sum_wOf (t : HNode) (hinv : t.builtInv) (hnd : t.leafSyms.Nodup) :
    (t.leafSyms.map (fun c => t.wOf c)).sum = t.wsum := by
  induction t with
  | leaf cs w =>
      obtain ⟨c0, hc0⟩ := List.length_eq_one.mp hinv
      subst hc0
      simp [HNode.leafSyms, HNode.wOf, HNode.wsum]
  | node cs w l r ihl ihr =>
      obtain ⟨hcs, hw, hl, hr⟩ := hinv
      simp only [HNode.leafSyms] at hnd ⊢
      rw [List.nodup_append] at hnd
      obtain ⟨hndl, hndr, hdisj⟩ := hnd
      simp only [HNode.wOf]
      rw [List.map_append, List.sum_append]
      have hleft : (l.leafSyms.map (fun c => l.wOf c + r.wOf c)).sum
          = l.wsum := by
        have hcongr : l.leafSyms.map (fun c => l.wOf c + r.wOf c)
            = l.leafSyms.map (fun c => l.wOf c) := by
          refine List.map_congr_left ?_
          intro c hc
          rw [HNode.wOf_zero c r (fun hcr => hdisj hc hcr), Nat.add_zero]
        rw [hcongr, ihl hl hndl]
      have hright : (r.leafSyms.map (fun c => l.wOf c + r.wOf c)).sum
          = r.wsum := by
        have hcongr : r.leafSyms.map (fun c => l.wOf c + r.wOf c)
            = r.leafSyms.map (fun c => r.wOf c) := by
          refine List.map_congr_left ?_
          intro c hc
          rw [HNode.wOf_zero c l (fun hcl => hdisj hcl hc), Nat.zero_add]
        rw [hcongr, ihr hr hndr]
      rw [hleft, hright]
      rfl

/-- The weighted sum of code lengths over the leaf symbols equals the
weighted path length of the tree. -/
theorem wcost_codes (t : HNode) (hinv : t.builtInv)
    (hnd : t.leafSyms.Nodup) :
    (t.leafSyms.map (fun c =>
        t.wOf c * ((encode_char_by_tree c t).getD []).length)).sum
      = t.wcost := by
  induction t with
  | leaf cs w =>
      obtain ⟨c0, hc0⟩ := List.length_eq_one.mp hinv
      subst hc0
      simp [HNode.leafSyms, HNode.wcost, encode_char_by_tree]
  | node cs w l r ihl ihr =>
      have hcsne : ∀ c, cs ≠ [c] := node_chars_ne_single cs w l r hinv
      obtain ⟨hcs, hw, hl, hr⟩ := hinv
      have hlc : l.chars = l.leafSyms := HNode.chars_eq_leafSyms l hl
      simp only [HNode.leafSyms] at hnd ⊢
      rw [List.nodup_append] at hnd
      obtain ⟨hndl, hndr, hdisj⟩ := hnd
      rw [List.map_append, List.sum_append]
      have hleft : (l.leafSyms.map (fun c =>
          (HNode.node cs w l r).wOf c *
            ((encode_char_by_tree c (HNode.node cs w l r)).getD
              []).length)).sum
          = l.wcost + l.wsum := by
        have hcongr : l.leafSyms.map (fun c =>
            (HNode.node cs w l r).wOf c *
              ((encode_char_by_tree c (HNode.node cs w l r)).getD
                []).length)
            = l.leafSyms.map (fun c =>
              l.wOf c * ((encode_char_by_tree c l).getD []).length
                + l.wOf c) := by
          refine List.map_congr_left ?_
          intro c hc
          have hcont : l.chars.contains c = true := by
            rw [hlc]
            exact List.elem_iff.mpr hc
          obtain ⟨code, hcode, hcw⟩ := encode_walk c l hl hc
          simp only [encode_char_by_tree, if_neg (hcsne c), hcont,
            if_true, hcode, Option.map_some', Option.getD_some,
            List.length_cons]
          rw [show (HNode.node cs w l r).wOf c = l.wOf c + r.wOf c
            from rfl]
          rw [HNode.wOf_zero c r (fun hcr => hdisj hc hcr), Nat.add_zero]
          ring
        rw [hcongr, sum_map_addf, ihl hl hndl, sum_wOf l hl hndl]
      have hright : (r.leafSyms.map (fun c =>
          (HNode.node cs w l r).wOf c *
            ((encode_char_by_tree c (HNode.node cs w l r)).getD
              []).length)).sum
          = r.wcost + r.wsum := by
        have hcongr : r.leafSyms.map (fun c =>
            (HNode.node cs w l r).wOf c *
              ((encode_char_by_tree c (HNode.node cs w l r)).getD
                []).length)
            = r.leafSyms.map (fun c =>
              r.wOf c * ((encode_char_by_tree c r).getD []).length
                + r.wOf c) := by
          refine List.map_congr_left ?_
          intro c hc
          have hcont : ¬ l.chars.contains c = true := by
            rw [hlc]
            intro hmem
            exact hdisj (List.elem_iff.mp hmem) hc
          obtain ⟨code, hcode, hcw⟩ := encode_walk c r hr hc
          simp only [encode_char_by_tree, if_neg (hcsne c), if_neg hcont,
            hcode, Option.map_some', Option.getD_some, List.length_cons]
          rw [show (HNode.node cs w l r).wOf c = l.wOf c + r.wOf c
            from rfl]
          rw [HNode.wOf_zero c l (fun hcl => hdisj hcl hc), Nat.zero_add]
          ring
        rw [hcongr, sum_map_addf, ihr hr hndr, sum_wOf r hr hndr]
      rw [hleft, hright,
        show (HNode.node cs w l r).wcost
          = l.wcost + r.wcost + l.wsum + r.wsum from rfl]
      ring

/-- Each `mergeLoop` step merges two minimum-weight trees, so the final
weighted path length is the initial one plus the Huffman merge cost of
the tree weights. -/
theorem mergeLoop_wcost : ∀ (fuel : Nat) (heap : List HNode),
    heapOrd heap → (∀ t ∈ heap, t.builtInv) →
    heap.length ≤ fuel + 1 → heap ≠ [] →
    ((mergeLoop fuel heap).map HNode.wcost).sum
      = (heap.map HNode.wcost).sum
        + hcost ((heap.map HNode.wsum : List Nat) : Multiset Nat) := by
  intro fuel
  induction fuel with
  | zero =>
      intro heap hord hinv hfuel hne
      have hlen1 : heap.length = 1 := by
        have hpos := List.length_pos.mpr hne
        omega
      obtain ⟨t, rfl⟩ := List.length_eq_one.mp hlen1
      rw [mergeLoop, hcost_card_le_one _ (by simp)]
      omega
  | succ fuel ih =>
      intro heap hord hinv hfuel hne
      by_cases hlen : heap.length > 1
      · rw [mergeLoop, if_pos hlen]
        obtain ⟨l1, hp1, hpop1⟩ := PyHeap.heappop_isSome node_lt heap
          (by intro hc; rw [hc] at hlen; simp at hlen)
        have hperm1 := PyHeap.heappop_perm node_lt heap l1 hp1 hpop1
        have hlen1 := PyHeap.heappop_length node_lt heap l1 hp1 hpop1
        obtain ⟨hmin1, hord1⟩ := heappop_min heap hord l1 hp1 hpop1
        obtain ⟨r1, hp2, hpop2⟩ := PyHeap.heappop_isSome node_lt hp1
          (by intro hc; rw [hc] at hlen1; simp at hlen1; omega)
        have hperm2 := PyHeap.heappop_perm node_lt hp1 r1 hp2 hpop2
        have hlen2' := PyHeap.heappop_length node_lt hp1 r1 hp2 hpop2
        obtain ⟨hmin2, hord2⟩ := heappop_min hp1 hord1 r1 hp2 hpop2
        simp only [hpop1, hpop2]
        have hinvl1 : l1.builtInv :=
          hinv l1 (hperm1.mem_iff.mpr (List.mem_cons_self _ _))
        have hinv1 : ∀ t ∈ hp1, t.builtInv := fun t ht =>
          hinv t (hperm1.mem_iff.mpr (List.mem_cons_of_mem _ ht))
        have hinvr1 : r1.builtInv :=
          hinv1 r1 (hperm2.mem_iff.mpr (List.mem_cons_self _ _))
        have hinv2 : ∀ t ∈ hp2, t.builtInv := fun t ht =>
          hinv1 t (hperm2.mem_iff.mpr (List.mem_cons_of_mem _ ht))
        have hordP := heappush_heapOrd hp2
          (HNode.node (l1.chars ++ r1.chars) (l1.weight + r1.weight) l1 r1)
          hord2
        have hpermP := PyHeap.heappush_perm node_lt hp2
          (HNode.node (l1.chars ++ r1.chars) (l1.weight + r1.weight) l1 r1)
        have hinvP : ∀ t ∈ PyHeap.heappush node_lt hp2
            (HNode.node (l1.chars ++ r1.chars) (l1.weight + r1.weight)
              l1 r1), t.builtInv := by
          intro t ht
          rcases List.mem_cons.mp (hpermP.mem_iff.mp ht) with rfl | ht2
          · exact builtInv_parent l1 r1 hinvl1 hinvr1
          · exact hinv2 t ht2
        have hlenP : (PyHeap.heappush node_lt hp2
            (HNode.node (l1.chars ++ r1.chars) (l1.weight + r1.weight)
              l1 r1)).length ≤ fuel + 1 := by
          rw [PyHeap.heappush_length]; omega
        have hneP : PyHeap.heappush node_lt hp2
            (HNode.node (l1.chars ++ r1.chars) (l1.weight + r1.weight)
              l1 r1) ≠ [] := by
          intro hc
          have hc2 := congrArg List.length hc
          rw [PyHeap.heappush_length] at hc2
          simp at hc2
        rw [ih _ hordP hinvP hlenP hneP]
        -- cost sums along the permutations
        have hwcP : ((PyHeap.heappush node_lt hp2
            (HNode.node (l1.chars ++ r1.chars) (l1.weight + r1.weight)
              l1 r1)).map HNode.wcost).sum
            = (l1.wcost + r1.wcost + l1.wsum + r1.wsum)
              + (hp2.map HNode.wcost).sum := by
          rw [(hpermP.map HNode.wcost).sum_eq]
          simp only [List.map_cons, List.sum_cons]
          rfl
        have hwc1 : (heap.map HNode.wcost).sum
            = l1.wcost + (hp1.map HNode.wcost).sum := by
          rw [(hperm1.map HNode.wcost).sum_eq]
          simp
        have hwc2 : (hp1.map HNode.wcost).sum
            = r1.wcost + (hp2.map HNode.wcost).sum := by
          rw [(hperm2.map HNode.wcost).sum_eq]
          simp
        -- weight multisets along the permutations
        have hws1 : ((heap.map HNode.wsum : List Nat) : Multiset Nat)
            = l1.wsum ::ₘ ↑(hp1.map HNode.wsum) := by
          rw [Multiset.coe_eq_coe.mpr (hperm1.map HNode.wsum),
            List.map_cons, ← Multiset.cons_coe]
        have hws2 : ((hp1.map HNode.wsum : List Nat) : Multiset Nat)
            = r1.wsum ::ₘ ↑(hp2.map HNode.wsum) := by
          rw [Multiset.coe_eq_coe.mpr (hperm2.map HNode.wsum),
            List.map_cons, ← Multiset.cons_coe]
        have hwsP : (((PyHeap.heappush node_lt hp2
            (HNode.node (l1.chars ++ r1.chars) (l1.weight + r1.weight)
              l1 r1)).map HNode.wsum : List Nat) : Multiset Nat)
            = (l1.wsum + r1.wsum) ::ₘ ↑(hp2.map HNode.wsum) := by
          rw [Multiset.coe_eq_coe.mpr (hpermP.map HNode.wsum),
            List.map_cons, ← Multiset.cons_coe]
          rfl
        -- the two pops return two minima of the weight multiset
        have hminw1 : ∀ x ∈ ((heap.map HNode.wsum : List Nat)
            : Multiset Nat), l1.wsum ≤ x := by
          intro x hx
          rw [Multiset.mem_coe] at hx
          obtain ⟨t, ht, rfl⟩ := List.mem_map.mp hx
          have h9 := hmin1 t ht
          rwa [HNode.weight_eq_wsum l1 hinvl1,
            HNode.weight_eq_wsum t (hinv t ht)] at h9
        have hminw2 : ∀ x ∈ ((hp1.map HNode.wsum : List Nat)
            : Multiset Nat), r1.wsum ≤ x := by
          intro x hx
          rw [Multiset.mem_coe] at hx
          obtain ⟨t, ht, rfl⟩ := List.mem_map.mp hx
          have h9 := hmin2 t ht
          rwa [HNode.weight_eq_wsum r1 hinvr1,
            HNode.weight_eq_wsum t (hinv1 t ht)] at h9
        have herase1 : (((heap.map HNode.wsum : List Nat)
            : Multiset Nat)).erase l1.wsum = ↑(hp1.map HNode.wsum) := by
          rw [hws1, Multiset.erase_cons_head]
        have hmrg := hcost_merge_min (↑(heap.map HNode.wsum))
          l1.wsum r1.wsum
          (by rw [Multiset.coe_card, List.length_map]; omega)
          (by rw [hws1]; exact Multiset.mem_cons_self _ _)
          hminw1
          (by rw [herase1, hws2]; exact Multiset.mem_cons_self _ _)
          (by rw [herase1]; exact hminw2)
        have herase2 : ((((heap.map HNode.wsum : List Nat)
            : Multiset Nat)).erase l1.wsum).erase r1.wsum
            = ↑(hp2.map HNode.wsum) := by
          rw [herase1, hws2, Multiset.erase_cons_head]
        rw [herase2] at hmrg
        rw [hwcP, hwsP, hwc1, hwc2, hmrg]
        omega
      · rw [mergeLoop, if_neg hlen]
        have hlen1 : heap.length = 1 := by
          have hpos := List.length_pos.mpr hne
          omega
        obtain ⟨t, rfl⟩ := List.length_eq_one.mp hlen1
        rw [hcost_card_le_one _ (by simp)]
        omega

/-- The tree built by `create_tree` has weighted path length exactly the
Huffman merge cost of the counts, and its labelled leaves are exactly
the frequency entries. -/
theorem create_tree_wcost_pairs (freq : List (Char × Nat))
    (hne : freq ≠ []) (root : HNode)
    (hroot : create_tree freq = some root) :
    root.wcost = hcost ((freq.map Prod.snd : List Nat) : Multiset Nat) ∧
    (root.leafPairs : Multiset (List Char × Nat))
      = ↑(freq.map (fun p => ([p.1], p.2))) := by
  have hroot2 : (mergeLoop (PyHeap.heapify node_lt
      (freq.map (fun p => HNode.leaf [p.1] p.2))).length
      (PyHeap.heapify node_lt
        (freq.map (fun p => HNode.leaf [p.1] p.2)))).head?
      = some root := hroot
  have hlenheap : (PyHeap.heapify node_lt
      (freq.map (fun p => HNode.leaf [p.1] p.2))).length
      = freq.length := by
    rw [PyHeap.heapify_length, List.length_map]
  have hne2 : PyHeap.heapify node_lt
      (freq.map (fun p => HNode.leaf [p.1] p.2)) ≠ [] := by
    intro hc
    have hc2 := congrArg List.length hc
    rw [hlenheap] at hc2
    simp only [List.length_nil] at hc2
    exact hne (List.length_eq_zero.mp hc2)
  have h1 := mergeLoop_length_one (PyHeap.heapify node_lt
      (freq.map (fun p => HNode.leaf [p.1] p.2))).length
    (PyHeap.heapify node_lt (freq.map (fun p => HNode.leaf [p.1] p.2)))
    (by omega) hne2
  obtain ⟨r0, hr0⟩ := List.length_eq_one.mp h1
  have hroot0 : root = r0 := by
    rw [hr0] at hroot2
    simp only [List.head?] at hroot2
    injection hroot2 with hroot2
    exact hroot2.symm
  subst hroot0
  have hordH := heapify_heapOrd (freq.map (fun p => HNode.leaf [p.1] p.2))
  have hinvH : ∀ t ∈ PyHeap.heapify node_lt
      (freq.map (fun p => HNode.leaf [p.1] p.2)), t.builtInv := by
    intro t ht
    have hmem := (PyHeap.heapify_perm node_lt _).mem_iff.mp ht
    obtain ⟨p, hp, rfl⟩ := List.mem_map.mp hmem
    simp [HNode.builtInv]
  have hcostEq := mergeLoop_wcost (PyHeap.heapify node_lt
      (freq.map (fun p => HNode.leaf [p.1] p.2))).length
    (PyHeap.heapify node_lt (freq.map (fun p => HNode.leaf [p.1] p.2)))
    hordH hinvH (by omega) hne2
  rw [hr0] at hcostEq
  have hwcH : ((PyHeap.heapify node_lt
      (freq.map (fun p => HNode.leaf [p.1] p.2))).map HNode.wcost).sum
      = 0 := by
    rw [((PyHeap.heapify_perm node_lt _).map HNode.wcost).sum_eq,
      List.map_map]
    apply List.sum_eq_zero
    intro x hx
    obtain ⟨p, hp, rfl⟩ := List.mem_map.mp hx
    rfl
  have hwsH : (((PyHeap.heapify node_lt
      (freq.map (fun p => HNode.leaf [p.1] p.2))).map HNode.wsum
        : List Nat) : Multiset Nat)
      = ↑(freq.map Prod.snd) := by
    rw [Multiset.coe_eq_coe.mpr
      ((PyHeap.heapify_perm node_lt _).map HNode.wsum), List.map_map]
    rfl
  rw [hwcH, hwsH] at hcostEq
  simp only [List.map_cons, List.map_nil, List.sum_cons, List.sum_nil]
    at hcostEq
  constructor
  · omega
  · have hpairs := mergeLoop_pairs (PyHeap.heapify node_lt
        (freq.map (fun p => HNode.leaf [p.1] p.2))).length
      (PyHeap.heapify node_lt (freq.map (fun p => HNode.leaf [p.1] p.2)))
    rw [hr0, pairsOf_perm (PyHeap.heapify_perm node_lt _),
      pairsOf_leaves, pairsOf_cons] at hpairs
    have hnil : pairsOf ([] : List HNode) = 0 := rfl
    rw [hnil, add_zero] at hpairs
    exact hpairs

theorem HNode.wOf_eq_leafPairs (c : Char) (t : HNode) :
    t.wOf c = (t.leafPairs.map
      (fun q => if q.1 = [c] then q.2 else 0)).sum := by
  induction t with
  | leaf cs w => simp [HNode.wOf, HNode.leafPairs]
  | node cs w l r ihl ihr =>
      simp only [HNode.wOf, HNode.leafPairs, List.map_append,
        List.sum_append, ihl, ihr]

theorem sum_if_key : ∀ (freq : List (Char × Nat)),
    (freq.map Prod.fst).Nodup → ∀ (c : Char) (n : Nat), (c, n) ∈ freq →
    (freq.map (fun p => if p.1 = c then p.2 else 0)).sum = n := by
  intro freq
  induction freq with
  | nil =>
      intro _ c n h
      cases h
  | cons q rest ih =>
      intro hnd c n hmem
      rw [List.map_cons, List.nodup_cons] at hnd
      obtain ⟨hq, hnd2⟩ := hnd
      rw [List.map_cons, List.sum_cons]
      rcases List.mem_cons.mp hmem with rfl | hmem2
      · rw [if_pos rfl]
        have hz : (rest.map (fun p => if p.1 = c then p.2 else 0)).sum
            = 0 := by
          apply List.sum_eq_zero
          intro x hx
          obtain ⟨p, hp, rfl⟩ := List.mem_map.mp hx
          rw [if_neg]
          intro hc
          apply hq
          show c ∈ List.map Prod.fst rest
          rw [← hc]
          exact List.mem_map_of_mem Prod.fst hp
        rw [hz]
        rfl
      · have hqc : q.1 ≠ c := by
          intro hc
          apply hq
          rw [hc]
          exact List.mem_map_of_mem Prod.fst hmem2
        rw [if_neg hqc, ih hnd2 c n hmem2, Nat.zero_add]

/-- In the built tree the leaf labelled with a table key carries exactly
that key's count. -/
theorem wOf_root_eq (freq : List (Char × Nat)) (root : HNode)
    (hpairs : root.leafPairs.Perm (freq.map (fun p => ([p.1], p.2))))
    (hnd : (freq.map Prod.fst).Nodup) (c : Char) (n : Nat)
    (hmem : (c, n) ∈ freq) :
    root.wOf c = n := by
  rw [HNode.wOf_eq_leafPairs, (hpairs.map _).sum_eq, List.map_map]
  have hfun : ((fun q : List Char × Nat => if q.1 = [c] then q.2 else 0)
        ∘ (fun p : Char × Nat => ([p.1], p.2)))
      = fun p : Char × Nat => if p.1 = c then p.2 else 0 := by
    funext p
    simp only [Function.comp_apply]
    by_cases h : p.1 = c
    · rw [if_pos (by rw [h]), if_pos h]
    · rw [if_neg, if_neg h]
      intro hc
      apply h
      have hc2 := congrArg (fun l => List.head? l) hc
      simpa using hc2
  rw [hfun]
  exact sum_if_key freq hnd c n hmem

/-- The program's weighted table cost is the weighted path length of the
built tree. -/
theorem program_cost_eq (freq : List (Char × Nat))
    (hlen : 2 ≤ freq.length) (hnd : (freq.map Prod.fst).Nodup)
    (root : HNode) (table : List (Char × List Bool))
    (hct : create_tree freq = some root)
    (htable : h_tree_to_table root freq = some table) :
    (freq.map
      (fun p => p.2 * ((table_get table p.1).getD []).length)).sum
      = root.wcost := by
  have hne : freq ≠ [] := by
    intro hc; rw [hc] at hlen; simp at hlen
  obtain ⟨root', table', hct', htable', hinv, hperm, hmem, hkeys⟩ :=
    build_all freq hne hnd
  rw [hct'] at hct
  injection hct with hct
  subst hct
  rw [htable'] at htable
  injection htable with htable
  subst htable
  obtain ⟨hwc, hpairsm⟩ := create_tree_wcost_pairs freq hne root' hct'
  have hpairs : root'.leafPairs.Perm (freq.map (fun p => ([p.1], p.2))) :=
    Multiset.coe_eq_coe.mp hpairsm
  have hndLS : root'.leafSyms.Nodup := hperm.nodup_iff.mpr hnd
  have hget : ∀ c ∈ freq.map Prod.fst,
      table_get table' c
        = some ((encode_char_by_tree c root').getD []) := by
    intro c hc
    obtain ⟨q, hq⟩ := table_get_isSome table' c (by rw [hkeys]; exact hc)
    have hqcode : encode_char_by_tree c root' = some q :=
      hmem (c, q) (table_get_mem table' c q hq)
    rw [hq, hqcode]
    rfl
  have hstep1 : freq.map
        (fun p => p.2 * ((table_get table' p.1).getD []).length)
      = freq.map (fun p => root'.wOf p.1 *
          ((encode_char_by_tree p.1 root').getD []).length) := by
    refine List.map_congr_left ?_
    intro p hp
    rw [hget p.1 (List.mem_map_of_mem Prod.fst hp), Option.getD_some,
      wOf_root_eq freq root' hpairs hnd p.1 p.2 hp]
  rw [hstep1]
  have hstep2 : freq.map (fun p => root'.wOf p.1 *
        ((encode_char_by_tree p.1 root').getD []).length)
      = (freq.map Prod.fst).map (fun c => root'.wOf c *
          ((encode_char_by_tree c root').getD []).length) := by
    rw [List.map_map]
    rfl
  rw [hstep2, ← (hperm.map _).sum_eq]
  exact wcost_codes root' hinv hndLS

/-- C6.  For every valid frequency table (at least two entries, no
duplicate symbols, positive counts), the code table built by
`create_tree` + `h_tree_to_table` is optimal: no alternative prefix-free
assignment of bit codes to the same symbols has a strictly smaller total
weighted code length `sum(count[s] * len(code[s]))`. -/
theorem huffman_code_optimal (freq : List (Char × Nat))
    (hlen : 2 ≤ freq.length) (hnd : (freq.map Prod.fst).Nodup)
    (hpos : ∀ p ∈ freq, 0 < p.2) :
    ∃ root table, create_tree freq = some root ∧
      h_tree_to_table root freq = some table ∧
      ∀ f : Char → List Bool,
        (∀ c ∈ freq.map Prod.fst, ∀ d ∈ freq.map Prod.fst, c ≠ d →
          ¬ f c <+: f d) →
        ¬ ((freq.map (fun p => p.2 * (f p.1).length)).sum
            < (freq.map
              (fun p => p.2 * ((table_get table p.1).getD []).length)).sum)
    := by
  have hne : freq ≠ [] := by
    intro hc; rw [hc] at hlen; simp at hlen
  obtain ⟨root, table, hct, htable, hinv, hperm, hmem, hkeys⟩ :=
    build_all freq hne hnd
  refine ⟨root, table, hct, htable, ?_⟩
  intro f hpf
  rw [Nat.not_lt]
  rw [program_cost_eq freq hlen hnd root table hct htable]
  obtain ⟨hwc, hpairsm⟩ := create_tree_wcost_pairs freq hne root hct
  rw [hwc]
  have hok : okItems (freq.map (fun p => (p.2, f p.1))) := by
    unfold okItems
    rw [List.pairwise_map]
    have hnd2 : freq.Pairwise (fun p q => p.1 ≠ q.1) := by
      rw [List.Nodup, List.pairwise_map] at hnd
      exact hnd
    refine hnd2.imp_of_mem ?_
    intro p q hp hq hne2
    exact ⟨hpf p.1 (List.mem_map_of_mem Prod.fst hp) q.1
        (List.mem_map_of_mem Prod.fst hq) hne2,
      hpf q.1 (List.mem_map_of_mem Prod.fst hq) p.1
        (List.mem_map_of_mem Prod.fst hp) (Ne.symm hne2)⟩
  have hlb := lb_items (itemsLen (freq.map (fun p => (p.2, f p.1))))
    (freq.map (fun p => (p.2, f p.1))) (le_refl _)
    (by rw [List.length_map]; exact hlen) hok
  have hws : wsItems (freq.map (fun p => (p.2, f p.1)))
      = ((freq.map Prod.snd : List Nat) : Multiset Nat) := by
    unfold wsItems
    rw [List.map_map]
    rfl
  have hcosteq : itemsCost (freq.map (fun p => (p.2, f p.1)))
      = (freq.map (fun p => p.2 * (f p.1).length)).sum := by
    unfold itemsCost
    rw [List.map_map]
    rfl
  rw [hws, hcosteq] at hlb
  exact hlb

/-- Witness for C6 at the concrete table `[('a',1),('b',2)]`. -/
theorem huffman_code_optimal_witness :
    2 ≤ ([('a', 1), ('b', 2)] : List (Char × Nat)).length ∧
    (([('a', 1), ('b', 2)] : List (Char × Nat)).map Prod.fst).Nodup ∧
    (∀ p ∈ ([('a', 1), ('b', 2)] : List (Char × Nat)), 0 < p.2) ∧
    ∃ root table,
      create_tree [('a', 1), ('b', 2)] = some root ∧
      h_tree_to_table root [('a', 1), ('b', 2)] = some table ∧
      ∀ f : Char → List Bool,
        (∀ c ∈ ([('a', 1), ('b', 2)] : List (Char × Nat)).map Prod.fst,
          ∀ d ∈ ([('a', 1), ('b', 2)] : List (Char × Nat)).map Prod.fst,
            c ≠ d → ¬ f c <+: f d) →
        ¬ ((([('a', 1), ('b', 2)] : List (Char × Nat)).map
              (fun p => p.2 * (f p.1).length)).sum
            < (([('a', 1), ('b', 2)] : List (Char × Nat)).map
              (fun p =>
                p.2 * ((table_get table p.1).getD []).length)).sum) :=
  ⟨by decide, by decide, by decide,
    huffman_code_optimal [('a', 1), ('b', 2)]
      (by decide) (by decide) (by decide)⟩
